import Mathlib

/- A shallow embedding of the Elixir critical-path-method scheduler
   (src/elixir.cpp), together with a verification of its scheduling
   behaviour.

   Modelling conventions:
   * C++ `int` is modelled as `Int` (the concrete inputs below exercise
     no overflow; where a general theorem needs the machine bound the
     hypothesis `EF ≤ INT_MAX` is stated explicitly).
   * The unbounded recursion of `getEarlyStartScore` / `getLateFinishScore`
     is modelled with an explicit fuel argument; `CpmErr.outOfFuel` stands
     for exhaustion of any recursion-depth bound (the C++ program would
     overflow its call stack there).
   * `throw runtime_error(...)` is modelled as `Except.error`.
   * In-place mutation of the task vector is modelled by returning the
     updated list.  The forward pass reads only `dependencies`/`duration`
     of other tasks and the backward pass reads only
     `successors`/`duration`/`EF`, none of which it writes, so updating
     the tasks one by one from the unmodified list is observationally the
     same as the C++ in-place loop. -/

deriving instance DecidableEq for Except

namespace Elixir

/-- The errors `elixir.cpp` can raise.  `taskNotFound n` models the
`runtime_error("Task not found: " + n)` thrown by `getTaskFromList` and
`getTaskObjectFromList`; `invalidNumber` models `std::stoi`'s
`invalid_argument`; `badRow` models the out-of-range vector access
`row[0]` / `row[1]` on a malformed CSV line; `outOfFuel` is the fuel
embedding of non-terminating recursion (C++ stack overflow). -/
inductive CpmErr where
  | taskNotFound : String → CpmErr
  | invalidNumber : String → CpmErr
  | badRow : String → CpmErr
  | outOfFuel : CpmErr
deriving Repr, DecidableEq

/-- The `Task` struct of `elixir.cpp`.  The C++ constructor leaves
`ES`/`EF`/`LS`/`LF`/`slack` uninitialised, but each of those fields is
written by the passes before it is ever read, so initialising them to 0
is observationally faithful; `successors` starts empty. -/
structure Task where
  name : String
  duration : Int
  dependencies : List String
  successors : List String
  ES : Int
  EF : Int
  LS : Int
  LF : Int
  slack : Int
deriving Repr, DecidableEq

/-- The `Task(name, duration, deps)` constructor. -/
def Task.make (n : String) (d : Int) (deps : List String) : Task :=
  ⟨n, d, deps, [], 0, 0, 0, 0, 0⟩

/-- Character-level body of a `while (getline(ss, item, sep))` loop:
characters accumulate into the current cell and the separator ends a
cell (the separator itself is consumed and not stored). -/
def getlineAux (sep : Char) : List Char → List Char → List (List Char)
  | [], acc => [acc]
  | c :: cs, acc =>
    if c = sep then acc :: getlineAux sep cs []
    else getlineAux sep cs (acc ++ [c])

/-- A full `while (getline(ss, item, sep))` loop over string `s`.  A
final `getline` that extracts zero characters at end-of-stream fails and
produces no cell, so a trailing empty cell is dropped; an empty stream
produces no cells at all. -/
def getlineSplit (sep : Char) (s : String) : List String :=
  if s.data.isEmpty then []
  else
    let parts := getlineAux sep s.data []
    (if parts.getLast? = some [] then parts.dropLast else parts).map List.asString

/-- `splitDependencies`: a `getline` loop on `;` (the only separator the
program uses), keeping an item only `if (!item.empty())`. -/
def splitDependencies (s : String) : List String :=
  (getlineSplit ';' s).filter (fun x => x ≠ "")

/-- The digit-accumulation loop of `std::stoi`: consume the longest
prefix of decimal digits (`stoi` ignores what follows it). -/
def stoiLoop : List Char → Nat → Nat
  | [], acc => acc
  | c :: cs, acc => if c.isDigit then stoiLoop cs (acc * 10 + (c.toNat - 48)) else acc

/-- `std::stoi` as this program feeds it: an optional sign followed by
at least one decimal digit; anything else throws `invalid_argument`
(modelled as `invalidNumber`).  Leading whitespace and the
`out_of_range` overflow throw are never exercised here and are not
modelled. -/
def stoiE (s : String) : Except CpmErr Int :=
  match s.data with
  | '-' :: c :: cs =>
    if c.isDigit then .ok (-(stoiLoop (c :: cs) 0 : Int)) else .error (.invalidNumber s)
  | '+' :: c :: cs =>
    if c.isDigit then .ok (stoiLoop (c :: cs) 0 : Int) else .error (.invalidNumber s)
  | c :: cs =>
    if c.isDigit then .ok (stoiLoop (c :: cs) 0 : Int) else .error (.invalidNumber s)
  | [] => .error (.invalidNumber s)

/-- One iteration of the line-processing loop of `loadCSV`: split the
line by commas, build `Task(row[0], stoi(row[1]), row.size() == 3 ?
splitDependencies(row[2]) : {})`.  A row with fewer than two cells makes
the C++ code index `row` out of range (undefined behaviour), modelled as
`badRow`. -/
def parseLine (line : String) : Except CpmErr Task :=
  match getlineSplit ',' line with
  | r0 :: r1 :: rest =>
    match stoiE r1 with
    | .error e => .error e
    | .ok d =>
      .ok (Task.make r0 d (if rest.length = 1 then splitDependencies (rest.headD "") else []))
  | _ => .error (.badRow line)

/-- The line loop of `loadCSV` over the data lines. -/
def loadRows : List String → Except CpmErr (List Task)
  | [] => .ok []
  | line :: rest =>
    match parseLine line with
    | .error e => .error e
    | .ok t =>
      match loadRows rest with
      | .error e => .error e
      | .ok ts => .ok (t :: ts)

/-- `loadCSV`: skip the header line (the `startProcessingLines` flag),
then parse every remaining line in order.  File I/O is outside the
embedding; the argument is the list of lines of the file. -/
def loadCSV (lines : List String) : Except CpmErr (List Task) :=
  loadRows (lines.drop 1)

/-- `getTaskFromList`: linear scan returning the FIRST task whose name
matches; `none` models the `runtime_error` throw. -/
def getTaskFromList (name : String) (taskList : List Task) : Option Task :=
  taskList.find? (fun t => t.name = name)

/-- The `for (const string& depName : task.dependencies)` loop body of
`getEarlyStartScore`, with the recursive call abstracted as `recES`
(it is instantiated with `getEarlyStartScore` at one less fuel).
`acc` is the running `ES` value, initially 0. -/
def esLoopF (recES : Task → List Task → Except CpmErr Int) (taskList : List Task) :
    List String → Int → Except CpmErr Int
  | [], acc => .ok acc
  | depName :: rest, acc =>
    match getTaskFromList depName taskList with
    | none => .error (.taskNotFound depName)
    | some depTask =>
      match recES depTask taskList with
      | .error e => .error e
      | .ok s =>
        let depEF := s + depTask.duration
        esLoopF recES taskList rest (if depEF > acc then depEF else acc)

/-- `getEarlyStartScore`: 0 for a task with no dependencies, otherwise
the maximum over its dependencies of their `EF = ES + duration`,
recomputed recursively (the C++ code is not memoized). -/
def getEarlyStartScore : Nat → Task → List Task → Except CpmErr Int
  | 0, _, _ => .error .outOfFuel
  | fuel + 1, task, taskList =>
    if task.dependencies.isEmpty then .ok 0
    else esLoopF (fun t l => getEarlyStartScore fuel t l) taskList task.dependencies 0

/-- Body of the `for (Task& task : taskList)` loop of
`updateAllEarlyVars`: set `task.ES` from `getEarlyStartScore` and
`task.EF = task.ES + task.duration`.  `taskList` is the full list used
for lookups. -/
def updateEarlyGo (fuel : Nat) (taskList : List Task) : List Task → Except CpmErr (List Task)
  | [] => .ok []
  | task :: rest =>
    match getEarlyStartScore fuel task taskList with
    | .error e => .error e
    | .ok es =>
      match updateEarlyGo fuel taskList rest with
      | .error e => .error e
      | .ok rest2 => .ok ({ task with ES := es, EF := es + task.duration } :: rest2)

/-- `updateAllEarlyVars` (the forward pass). -/
def updateAllEarlyVars (fuel : Nat) (taskList : List Task) : Except CpmErr (List Task) :=
  updateEarlyGo fuel taskList taskList

/-- One `depTask.successors.push_back(t.name)` step of
`populateSuccessors`: append `succName` to the successors of the FIRST
task named `depName` (that is what `getTaskObjectFromList` finds);
`none` models the throw when no task has that name. -/
def pushSuccessor (depName succName : String) : List Task → Option (List Task)
  | [] => none
  | t :: rest =>
    if t.name = depName then
      some ({ t with successors := t.successors ++ [succName] } :: rest)
    else
      (pushSuccessor depName succName rest).map (fun l => t :: l)

/-- The inner `for (const string& depName : t.dependencies)` loop of
`populateSuccessors` for one task named `succName`. -/
def pushSuccessors (succName : String) : List String → List Task → Except CpmErr (List Task)
  | [], taskList => .ok taskList
  | depName :: rest, taskList =>
    match pushSuccessor depName succName taskList with
    | none => .error (.taskNotFound depName)
    | some taskList2 => pushSuccessors succName rest taskList2

/-- The outer loop of `populateSuccessors` over the (name, dependencies)
pairs of all tasks.  Only `successors` fields are mutated, so the pairs
read by the C++ iteration are those of the initial list. -/
def populateSuccessorsGo : List (String × List String) → List Task → Except CpmErr (List Task)
  | [], taskList => .ok taskList
  | (n, deps) :: rest, taskList =>
    match pushSuccessors n deps taskList with
    | .error e => .error e
    | .ok taskList2 => populateSuccessorsGo rest taskList2

/-- `populateSuccessors`: for every task `t` and every dependency name
`d` of `t`, append `t.name` to the successors of the task named `d`. -/
def populateSuccessors (taskList : List Task) : Except CpmErr (List Task) :=
  populateSuccessorsGo (taskList.map (fun t => (t.name, t.dependencies))) taskList

/-- `INT_MAX`, the initial value of the minimisation in
`getLateFinishScore`. -/
def INT_MAX : Int := 2147483647

/-- The `for (const string& sName : task.successors)` loop body of
`getLateFinishScore`, with the recursive call abstracted as `recLF`.
`acc` is the running `LF` value, initially `INT_MAX`. -/
def lfLoopF (recLF : Task → List Task → Except CpmErr Int) (taskList : List Task) :
    List String → Int → Except CpmErr Int
  | [], acc => .ok acc
  | sName :: rest, acc =>
    match getTaskFromList sName taskList with
    | none => .error (.taskNotFound sName)
    | some sTask =>
      match recLF sTask taskList with
      | .error e => .error e
      | .ok w =>
        let sLS := w - sTask.duration
        lfLoopF recLF taskList rest (if sLS < acc then sLS else acc)

/-- `getLateFinishScore`: a task with no successors gets its OWN `EF`
(`// No successors -> end of project -> LF=EF`), otherwise the minimum
over its successors of their late start `LS = LF - duration`. -/
def getLateFinishScore : Nat → Task → List Task → Except CpmErr Int
  | 0, _, _ => .error .outOfFuel
  | fuel + 1, task, taskList =>
    if task.successors.isEmpty then .ok task.EF
    else lfLoopF (fun t l => getLateFinishScore fuel t l) taskList task.successors INT_MAX

/-- Body of the loop of `updateAllLateVars`: set `task.LF` from
`getLateFinishScore` and `task.LS = task.LF - task.duration`. -/
def updateLateGo (fuel : Nat) (taskList : List Task) : List Task → Except CpmErr (List Task)
  | [] => .ok []
  | task :: rest =>
    match getLateFinishScore fuel task taskList with
    | .error e => .error e
    | .ok lf =>
      match updateLateGo fuel taskList rest with
      | .error e => .error e
      | .ok rest2 => .ok ({ task with LF := lf, LS := lf - task.duration } :: rest2)

/-- `updateAllLateVars` (the backward pass). -/
def updateAllLateVars (fuel : Nat) (taskList : List Task) : Except CpmErr (List Task) :=
  updateLateGo fuel taskList taskList

/-- `updateAllSlack`: `slack = LS - ES` for every task. -/
def updateAllSlack (taskList : List Task) : List Task :=
  taskList.map (fun task => { task with slack := task.LS - task.ES })

/-- The project length computed in `outputTimelineCSV`:
`max(EF)` over all tasks, starting from 0. -/
def projectLength (taskList : List Task) : Int :=
  taskList.foldl (fun acc t => if t.EF > acc then t.EF else acc) 0

/-- The computational core of `main`: forward pass, successor
population, backward pass, slack — in that order, each aborting the run
on an exception. -/
def runCpm (fuel : Nat) (tasks : List Task) : Except CpmErr (List Task) :=
  match updateAllEarlyVars fuel tasks with
  | .error e => .error e
  | .ok t1 =>
    match populateSuccessors t1 with
    | .error e => .error e
    | .ok t2 =>
      match updateAllLateVars fuel t2 with
      | .error e => .error e
      | .ok t3 => .ok (updateAllSlack t3)

/-- `main` up to (but not including) the file output: load the CSV and
run the four passes. -/
def elixirMain (fuel : Nat) (lines : List String) : Except CpmErr (List Task) :=
  match loadCSV lines with
  | .error e => .error e
  | .ok tasks => runCpm fuel tasks

/-! ### Generic list helpers -/

/-- Right-to-left membership along a `Forall₂` relation. -/
theorem forall₂_mem_right {α β : Type} {R : α → β → Prop} :
    ∀ {l1 : List α} {l2 : List β}, List.Forall₂ R l1 l2 → ∀ {b}, b ∈ l2 → ∃ a ∈ l1, R a b := by
  intro l1 l2 h
  induction h with
  | nil => intro b hb; cases hb
  | cons hab _ ih =>
    intro b hb
    rcases List.mem_cons.mp hb with rfl | hb
    · exact ⟨_, List.mem_cons_self _ _, hab⟩
    · rcases ih hb with ⟨a, ha, hr⟩
      exact ⟨a, List.mem_cons_of_mem _ ha, hr⟩

/-- Left-to-right membership along a `Forall₂` relation. -/
theorem forall₂_mem_left {α β : Type} {R : α → β → Prop} :
    ∀ {l1 : List α} {l2 : List β}, List.Forall₂ R l1 l2 → ∀ {a}, a ∈ l1 → ∃ b ∈ l2, R a b := by
  intro l1 l2 h
  induction h with
  | nil => intro a ha; cases ha
  | cons hab _ ih =>
    intro a ha
    rcases List.mem_cons.mp ha with rfl | ha
    · exact ⟨_, List.mem_cons_self _ _, hab⟩
    · rcases ih ha with ⟨b, hb, hr⟩
      exact ⟨b, List.mem_cons_of_mem _ hb, hr⟩

/-- Composition of two `Forall₂` relations. -/
theorem forall₂_comp {α β γ : Type} {R : α → β → Prop} {S : β → γ → Prop}
    {T : α → γ → Prop} (hT : ∀ a b c, R a b → S b c → T a c) :
    ∀ {l1 : List α} {l2 : List β} {l3 : List γ},
      List.Forall₂ R l1 l2 → List.Forall₂ S l2 l3 → List.Forall₂ T l1 l3 := by
  intro l1 l2 l3 h
  induction h generalizing l3 with
  | nil => intro h2; cases h2; exact List.Forall₂.nil
  | cons hab htail ih =>
    intro h2
    cases h2 with
    | cons hbc h2tail => exact List.Forall₂.cons (hT _ _ _ hab hbc) (ih h2tail)

/-- A reflexive-shaped `Forall₂` from a pointwise fact. -/
theorem forall₂_refl_of {α : Type} {R : α → α → Prop} :
    ∀ {l : List α}, (∀ a ∈ l, R a a) → List.Forall₂ R l l := by
  intro l
  induction l with
  | nil => intro _; exact List.Forall₂.nil
  | cons a l ih =>
    intro h
    exact List.Forall₂.cons (h a (List.mem_cons_self _ _))
      (ih fun x hx => h x (List.mem_cons_of_mem _ hx))

/-- The names found by `getTaskFromList`. -/
theorem getTaskFromList_some {n : String} {tl : List Task} {u : Task}
    (h : getTaskFromList n tl = some u) : u ∈ tl ∧ u.name = n := by
  refine ⟨List.mem_of_find?_eq_some h, ?_⟩
  have := List.find?_some h
  exact of_decide_eq_true this

/-- With pairwise-distinct names, `getTaskFromList` finds exactly the member
carrying the name. -/
theorem getTaskFromList_of_mem_nodup :
    ∀ {tl : List Task}, (tl.map Task.name).Nodup → ∀ {u : Task}, u ∈ tl →
      getTaskFromList u.name tl = some u := by
  intro tl
  induction tl with
  | nil => intro _ u hu; cases hu
  | cons t rest ih =>
    intro hnd u hu
    have hnd' : (∀ x ∈ rest, ¬x.name = t.name) ∧ (List.map Task.name rest).Nodup := by
      simpa using hnd
    rcases List.mem_cons.mp hu with rfl | hu
    · simp [getTaskFromList, List.find?]
    · by_cases hname : t.name = u.name
      · exact absurd hname.symm (hnd'.1 u hu)
      · have : (decide (t.name = u.name)) = false := by
          simp [hname]
        simp only [getTaskFromList, List.find?, this]
        exact ih hnd'.2 hu

/-- Resolvability gives some found task. -/
theorem getTaskFromList_isSome_iff {n : String} {tl : List Task} :
    (getTaskFromList n tl).isSome ↔ ∃ u, getTaskFromList n tl = some u := by
  cases h : getTaskFromList n tl <;> simp [h]

/-! ### The forward-pass recursion -/

theorem esLoopF_mono {tl : List Task}
    {rec rec' : Task → List Task → Except CpmErr Int}
    (h : ∀ u w, rec u tl = .ok w → rec' u tl = .ok w) :
    ∀ {deps : List String} {acc v : Int},
      esLoopF rec tl deps acc = .ok v → esLoopF rec' tl deps acc = .ok v := by
  intro deps
  induction deps with
  | nil => intro acc v hv; simpa [esLoopF] using hv
  | cons d rest ih =>
    intro acc v hv
    rcases hfind : getTaskFromList d tl with _ | u
    · simp [esLoopF, hfind] at hv
    · rcases hrec : rec u tl with e | w
      · simp [esLoopF, hfind, hrec] at hv
      · have hv' : esLoopF rec tl rest (if w + u.duration > acc then w + u.duration else acc) = .ok v := by
          simpa [esLoopF, hfind, hrec] using hv
        simpa [esLoopF, hfind, h u w hrec] using ih hv'

theorem getEarlyStartScore_mono_succ :
    ∀ {f : Nat} {t : Task} {tl : List Task} {v : Int},
      getEarlyStartScore f t tl = .ok v → getEarlyStartScore (f + 1) t tl = .ok v := by
  intro f
  induction f with
  | zero => intro t tl v h; simp [getEarlyStartScore] at h
  | succ f ih =>
    intro t tl v h
    by_cases hd : t.dependencies.isEmpty
    · simpa [getEarlyStartScore, hd] using h
    · have h' : esLoopF (fun t l => getEarlyStartScore f t l) tl t.dependencies 0 = .ok v := by
        simpa [getEarlyStartScore, hd] using h
      have := esLoopF_mono (fun u w hw => ih hw) h'
      simpa [getEarlyStartScore, hd] using this

theorem getEarlyStartScore_mono {f f' : Nat} (hle : f ≤ f') {t : Task} {tl : List Task} {v : Int}
    (h : getEarlyStartScore f t tl = .ok v) : getEarlyStartScore f' t tl = .ok v := by
  induction hle with
  | refl => exact h
  | step _ ih => exact getEarlyStartScore_mono_succ ih

theorem getEarlyStartScore_unique {f f' : Nat} {t : Task} {tl : List Task} {v w : Int}
    (h : getEarlyStartScore f t tl = .ok v) (h' : getEarlyStartScore f' t tl = .ok w) : v = w := by
  have h1 := getEarlyStartScore_mono (Nat.le_max_left f f') h
  have h2 := getEarlyStartScore_mono (Nat.le_max_right f f') h'
  rw [h1] at h2
  exact (Except.ok.injEq _ _).mp h2

theorem esLoopF_ok_elim {tl : List Task} {rec : Task → List Task → Except CpmErr Int} :
    ∀ {deps : List String} {acc v : Int}, esLoopF rec tl deps acc = .ok v →
      acc ≤ v ∧
      (∀ d ∈ deps, ∃ u w, getTaskFromList d tl = some u ∧ rec u tl = .ok w ∧ w + u.duration ≤ v) ∧
      (v = acc ∨ ∃ d ∈ deps, ∃ u w, getTaskFromList d tl = some u ∧ rec u tl = .ok w ∧
        v = w + u.duration) := by
  intro deps
  induction deps with
  | nil =>
    intro acc v hv
    have : acc = v := by simpa [esLoopF] using hv
    subst this
    exact ⟨le_refl _, by simp, Or.inl rfl⟩
  | cons d rest ih =>
    intro acc v hv
    rcases hfind : getTaskFromList d tl with _ | u
    · simp [esLoopF, hfind] at hv
    · rcases hrec : rec u tl with e | w
      · simp [esLoopF, hfind, hrec] at hv
      · have hv' : esLoopF rec tl rest (if w + u.duration > acc then w + u.duration else acc) = .ok v := by
          simpa [esLoopF, hfind, hrec] using hv
        rcases ih hv' with ⟨hacc, hall, hatt⟩
        have haccle : acc ≤ (if w + u.duration > acc then w + u.duration else acc) := by
          split <;> omega
        have hheadle : w + u.duration ≤ (if w + u.duration > acc then w + u.duration else acc) := by
          split <;> omega
        refine ⟨le_trans haccle hacc, ?_, ?_⟩
        · intro d' hd'
          rcases List.mem_cons.mp hd' with rfl | hd'
          · exact ⟨u, w, hfind, hrec, le_trans hheadle hacc⟩
          · exact hall d' hd'
        · rcases hatt with hveq | ⟨d', hd', u', w', hfind', hrec', hveq⟩
          · by_cases hgt : w + u.duration > acc
            · refine Or.inr ⟨d, List.mem_cons_self _ _, u, w, hfind, hrec, ?_⟩
              simpa [hgt] using hveq
            · refine Or.inl ?_
              simpa [hgt] using hveq
          · exact Or.inr ⟨d', List.mem_cons_of_mem _ hd', u', w', hfind', hrec', hveq⟩

theorem esLoopF_ok_intro {tl : List Task} {rec : Task → List Task → Except CpmErr Int} :
    ∀ {deps : List String},
      (∀ d ∈ deps, ∃ u w, getTaskFromList d tl = some u ∧ rec u tl = .ok w) →
      ∀ acc, ∃ v, esLoopF rec tl deps acc = .ok v := by
  intro deps
  induction deps with
  | nil => intro _ acc; exact ⟨acc, by simp [esLoopF]⟩
  | cons d rest ih =>
    intro h acc
    rcases h d (List.mem_cons_self _ _) with ⟨u, w, hfind, hrec⟩
    rcases ih (fun d' hd' => h d' (List.mem_cons_of_mem _ hd'))
      (if w + u.duration > acc then w + u.duration else acc) with ⟨v, hv⟩
    exact ⟨v, by simpa [esLoopF, hfind, hrec] using hv⟩

/-- The value of a successful forward computation is non-negative (the
accumulator starts at 0 and only grows). -/
theorem getEarlyStartScore_nonneg {f : Nat} {t : Task} {tl : List Task} {v : Int}
    (h : getEarlyStartScore f t tl = .ok v) : 0 ≤ v := by
  match f with
  | 0 => simp [getEarlyStartScore] at h
  | f + 1 =>
    by_cases hd : t.dependencies.isEmpty
    · have : (0 : Int) = v := by simpa [getEarlyStartScore, hd] using h
      omega
    · have h' : esLoopF (fun t l => getEarlyStartScore f t l) tl t.dependencies 0 = .ok v := by
        simpa [getEarlyStartScore, hd] using h
      exact (esLoopF_ok_elim h').1

/-- A task with no dependencies has early start 0. -/
theorem getEarlyStartScore_empty {f : Nat} {t : Task} {tl : List Task} {v : Int}
    (h : getEarlyStartScore f t tl = .ok v) (hd : t.dependencies = []) : v = 0 := by
  match f with
  | 0 => simp [getEarlyStartScore] at h
  | f + 1 =>
    have : (0 : Int) = v := by simpa [getEarlyStartScore, hd] using h
    omega

/-- Every dependency's early finish bounds the early start from below. -/
theorem getEarlyStartScore_dep_bound {f : Nat} {t : Task} {tl : List Task} {v : Int}
    (h : getEarlyStartScore f t tl = .ok v) {d : String} (hd : d ∈ t.dependencies) :
    ∃ f' u w, getTaskFromList d tl = some u ∧ getEarlyStartScore f' u tl = .ok w ∧
      w + u.duration ≤ v := by
  match f with
  | 0 => simp [getEarlyStartScore] at h
  | f + 1 =>
    have hne : ¬t.dependencies.isEmpty := by
      cases hdep : t.dependencies with
      | nil => rw [hdep] at hd; cases hd
      | cons x xs => simp [hdep]
    have h' : esLoopF (fun t l => getEarlyStartScore f t l) tl t.dependencies 0 = .ok v := by
      simpa [getEarlyStartScore, hne] using h
    rcases (esLoopF_ok_elim h').2.1 d hd with ⟨u, w, hfind, hrec, hle⟩
    exact ⟨f, u, w, hfind, hrec, hle⟩

/-- On a non-empty dependency list the early start is attained by some
dependency, provided all durations and values involved are non-negative
(the code folds starting from 0, so a value of 0 is attained whenever
every candidate is ≥ 0 and one of them must be ≤ 0). -/
theorem getEarlyStartScore_attained {f : Nat} {t : Task} {tl : List Task} {v : Int}
    (h : getEarlyStartScore f t tl = .ok v) (hne : t.dependencies ≠ [])
    (hdur : ∀ u ∈ tl, 0 ≤ u.duration) :
    ∃ d ∈ t.dependencies, ∃ f' u w, getTaskFromList d tl = some u ∧
      getEarlyStartScore f' u tl = .ok w ∧ v = w + u.duration := by
  match f with
  | 0 => simp [getEarlyStartScore] at h
  | f + 1 =>
    have hne' : ¬t.dependencies.isEmpty := by
      cases hdep : t.dependencies with
      | nil => exact absurd hdep hne
      | cons x xs => simp [hdep]
    have h' : esLoopF (fun t l => getEarlyStartScore f t l) tl t.dependencies 0 = .ok v := by
      simpa [getEarlyStartScore, hne'] using h
    rcases esLoopF_ok_elim h' with ⟨_, hall, hatt⟩
    rcases hatt with hv0 | ⟨d, hd, u, w, hfind, hrec, hveq⟩
    · rcases List.exists_mem_of_ne_nil _ hne with ⟨d, hd⟩
      rcases hall d hd with ⟨u, w, hfind, hrec, hle⟩
      have hw : 0 ≤ w := getEarlyStartScore_nonneg hrec
      have hu : 0 ≤ u.duration := hdur u (getTaskFromList_some hfind).1
      exact ⟨d, hd, f, u, w, hfind, hrec, by omega⟩
    · exact ⟨d, hd, f, u, w, hfind, hrec, hveq⟩

/-! ### The backward-pass recursion -/

theorem lfLoopF_mono {tl : List Task}
    {rec rec' : Task → List Task → Except CpmErr Int}
    (h : ∀ u w, rec u tl = .ok w → rec' u tl = .ok w) :
    ∀ {succ : List String} {acc v : Int},
      lfLoopF rec tl succ acc = .ok v → lfLoopF rec' tl succ acc = .ok v := by
  intro succ
  induction succ with
  | nil => intro acc v hv; simpa [lfLoopF] using hv
  | cons s rest ih =>
    intro acc v hv
    rcases hfind : getTaskFromList s tl with _ | u
    · simp [lfLoopF, hfind] at hv
    · rcases hrec : rec u tl with e | w
      · simp [lfLoopF, hfind, hrec] at hv
      · have hv' : lfLoopF rec tl rest (if w - u.duration < acc then w - u.duration else acc) = .ok v := by
          simpa [lfLoopF, hfind, hrec] using hv
        simpa [lfLoopF, hfind, h u w hrec] using ih hv'

theorem getLateFinishScore_mono_succ :
    ∀ {f : Nat} {t : Task} {tl : List Task} {v : Int},
      getLateFinishScore f t tl = .ok v → getLateFinishScore (f + 1) t tl = .ok v := by
  intro f
  induction f with
  | zero => intro t tl v h; simp [getLateFinishScore] at h
  | succ f ih =>
    intro t tl v h
    by_cases hs : t.successors.isEmpty
    · simpa [getLateFinishScore, hs] using h
    · have h' : lfLoopF (fun t l => getLateFinishScore f t l) tl t.successors INT_MAX = .ok v := by
        simpa [getLateFinishScore, hs] using h
      have := lfLoopF_mono (fun u w hw => ih hw) h'
      simpa [getLateFinishScore, hs] using this

theorem getLateFinishScore_mono {f f' : Nat} (hle : f ≤ f') {t : Task} {tl : List Task} {v : Int}
    (h : getLateFinishScore f t tl = .ok v) : getLateFinishScore f' t tl = .ok v := by
  induction hle with
  | refl => exact h
  | step _ ih => exact getLateFinishScore_mono_succ ih

theorem getLateFinishScore_unique {f f' : Nat} {t : Task} {tl : List Task} {v w : Int}
    (h : getLateFinishScore f t tl = .ok v) (h' : getLateFinishScore f' t tl = .ok w) : v = w := by
  have h1 := getLateFinishScore_mono (Nat.le_max_left f f') h
  have h2 := getLateFinishScore_mono (Nat.le_max_right f f') h'
  rw [h1] at h2
  exact (Except.ok.injEq _ _).mp h2

theorem lfLoopF_ok_elim {tl : List Task} {rec : Task → List Task → Except CpmErr Int} :
    ∀ {succ : List String} {acc v : Int}, lfLoopF rec tl succ acc = .ok v →
      v ≤ acc ∧
      (∀ s ∈ succ, ∃ u w, getTaskFromList s tl = some u ∧ rec u tl = .ok w ∧ v ≤ w - u.duration) ∧
      (v = acc ∨ ∃ s ∈ succ, ∃ u w, getTaskFromList s tl = some u ∧ rec u tl = .ok w ∧
        v = w - u.duration) := by
  intro succ
  induction succ with
  | nil =>
    intro acc v hv
    have : acc = v := by simpa [lfLoopF] using hv
    subst this
    exact ⟨le_refl _, by simp, Or.inl rfl⟩
  | cons s rest ih =>
    intro acc v hv
    rcases hfind : getTaskFromList s tl with _ | u
    · simp [lfLoopF, hfind] at hv
    · rcases hrec : rec u tl with e | w
      · simp [lfLoopF, hfind, hrec] at hv
      · have hv' : lfLoopF rec tl rest (if w - u.duration < acc then w - u.duration else acc) = .ok v := by
          simpa [lfLoopF, hfind, hrec] using hv
        rcases ih hv' with ⟨hacc, hall, hatt⟩
        have haccle : (if w - u.duration < acc then w - u.duration else acc) ≤ acc := by
          split <;> omega
        have hheadle : (if w - u.duration < acc then w - u.duration else acc) ≤ w - u.duration := by
          split <;> omega
        refine ⟨le_trans hacc haccle, ?_, ?_⟩
        · intro s' hs'
          rcases List.mem_cons.mp hs' with rfl | hs'
          · exact ⟨u, w, hfind, hrec, le_trans hacc hheadle⟩
          · exact hall s' hs'
        · rcases hatt with hveq | ⟨s', hs', u', w', hfind', hrec', hveq⟩
          · by_cases hlt : w - u.duration < acc
            · refine Or.inr ⟨s, List.mem_cons_self _ _, u, w, hfind, hrec, ?_⟩
              simpa [hlt] using hveq
            · refine Or.inl ?_
              simpa [hlt] using hveq
          · exact Or.inr ⟨s', List.mem_cons_of_mem _ hs', u', w', hfind', hrec', hveq⟩

theorem lfLoopF_ok_intro {tl : List Task} {rec : Task → List Task → Except CpmErr Int} :
    ∀ {succ : List String},
      (∀ s ∈ succ, ∃ u w, getTaskFromList s tl = some u ∧ rec u tl = .ok w) →
      ∀ acc, ∃ v, lfLoopF rec tl succ acc = .ok v := by
  intro succ
  induction succ with
  | nil => intro _ acc; exact ⟨acc, by simp [lfLoopF]⟩
  | cons s rest ih =>
    intro h acc
    rcases h s (List.mem_cons_self _ _) with ⟨u, w, hfind, hrec⟩
    rcases ih (fun s' hs' => h s' (List.mem_cons_of_mem _ hs'))
      (if w - u.duration < acc then w - u.duration else acc) with ⟨v, hv⟩
    exact ⟨v, by simpa [lfLoopF, hfind, hrec] using hv⟩

/-- A task with no successors gets its own early finish as late finish
(`// No successors -> end of project -> LF=EF`). -/
theorem getLateFinishScore_leaf {f : Nat} {t : Task} {tl : List Task} {v : Int}
    (h : getLateFinishScore f t tl = .ok v) (hs : t.successors = []) : v = t.EF := by
  match f with
  | 0 => simp [getLateFinishScore] at h
  | f + 1 =>
    have : t.EF = v := by simpa [getLateFinishScore, hs] using h
    omega

/-- Every successor's late start bounds the late finish from above. -/
theorem getLateFinishScore_succ_bound {f : Nat} {t : Task} {tl : List Task} {v : Int}
    (h : getLateFinishScore f t tl = .ok v) {s : String} (hs : s ∈ t.successors) :
    ∃ f' u w, getTaskFromList s tl = some u ∧ getLateFinishScore f' u tl = .ok w ∧
      v ≤ w - u.duration := by
  match f with
  | 0 => simp [getLateFinishScore] at h
  | f + 1 =>
    have hne : ¬t.successors.isEmpty := by
      cases hsuc : t.successors with
      | nil => rw [hsuc] at hs; cases hs
      | cons x xs => simp [hsuc]
    have h' : lfLoopF (fun t l => getLateFinishScore f t l) tl t.successors INT_MAX = .ok v := by
      simpa [getLateFinishScore, hne] using h
    rcases (lfLoopF_ok_elim h').2.1 s hs with ⟨u, w, hfind, hrec, hle⟩
    exact ⟨f, u, w, hfind, hrec, hle⟩

/-- On a non-empty successor list the late finish either is the
`INT_MAX` seed or is attained by some successor. -/
theorem getLateFinishScore_attained {f : Nat} {t : Task} {tl : List Task} {v : Int}
    (h : getLateFinishScore f t tl = .ok v) (hne : t.successors ≠ []) :
    v = INT_MAX ∨ ∃ s ∈ t.successors, ∃ f' u w, getTaskFromList s tl = some u ∧
      getLateFinishScore f' u tl = .ok w ∧ v = w - u.duration := by
  match f with
  | 0 => simp [getLateFinishScore] at h
  | f + 1 =>
    have hne' : ¬t.successors.isEmpty := by
      cases hsuc : t.successors with
      | nil => exact absurd hsuc hne
      | cons x xs => simp [hsuc]
    have h' : lfLoopF (fun t l => getLateFinishScore f t l) tl t.successors INT_MAX = .ok v := by
      simpa [getLateFinishScore, hne'] using h
    rcases (lfLoopF_ok_elim h').2.2 with hv | ⟨s, hs, u, w, hfind, hrec, hveq⟩
    · exact Or.inl hv
    · exact Or.inr ⟨s, hs, f, u, w, hfind, hrec, hveq⟩

/-! ### Shape of the pipeline stages -/

/-- What one iteration of `updateAllEarlyVars` does to one task. -/
def EarlyStep (fuel : Nat) (full : List Task) (u t : Task) : Prop :=
  getEarlyStartScore fuel u full = .ok t.ES ∧
    t = { u with ES := t.ES, EF := t.ES + u.duration }

theorem updateEarlyGo_ok {fuel : Nat} {full : List Task} :
    ∀ {l out : List Task}, updateEarlyGo fuel full l = .ok out →
      List.Forall₂ (EarlyStep fuel full) l out := by
  intro l
  induction l with
  | nil =>
    intro out h
    have : [] = out := by simpa [updateEarlyGo] using h
    subst this
    exact .nil
  | cons task rest ih =>
    intro out h
    rcases hes : getEarlyStartScore fuel task full with e | es
    · simp [updateEarlyGo, hes] at h
    · rcases hrest : updateEarlyGo fuel full rest with e | rest2
      · simp [updateEarlyGo, hes, hrest] at h
      · have hout : ({ task with ES := es, EF := es + task.duration } :: rest2) = out := by
          simpa [updateEarlyGo, hes, hrest] using h
        subst hout
        exact .cons ⟨by simpa using hes, by simp⟩ (ih hrest)

theorem updateAllEarlyVars_ok {fuel : Nat} {tl out : List Task}
    (h : updateAllEarlyVars fuel tl = .ok out) : List.Forall₂ (EarlyStep fuel tl) tl out :=
  updateEarlyGo_ok h

/-- What one iteration of `updateAllLateVars` does to one task. -/
def LateStep (fuel : Nat) (full : List Task) (u t : Task) : Prop :=
  getLateFinishScore fuel u full = .ok t.LF ∧
    t = { u with LF := t.LF, LS := t.LF - u.duration }

theorem updateLateGo_ok {fuel : Nat} {full : List Task} :
    ∀ {l out : List Task}, updateLateGo fuel full l = .ok out →
      List.Forall₂ (LateStep fuel full) l out := by
  intro l
  induction l with
  | nil =>
    intro out h
    have : [] = out := by simpa [updateLateGo] using h
    subst this
    exact .nil
  | cons task rest ih =>
    intro out h
    rcases hlf : getLateFinishScore fuel task full with e | lf
    · simp [updateLateGo, hlf] at h
    · rcases hrest : updateLateGo fuel full rest with e | rest2
      · simp [updateLateGo, hlf, hrest] at h
      · have hout : ({ task with LF := lf, LS := lf - task.duration } :: rest2) = out := by
          simpa [updateLateGo, hlf, hrest] using h
        subst hout
        exact .cons ⟨by simpa using hlf, by simp⟩ (ih hrest)

theorem updateAllLateVars_ok {fuel : Nat} {tl out : List Task}
    (h : updateAllLateVars fuel tl = .ok out) : List.Forall₂ (LateStep fuel tl) tl out :=
  updateLateGo_ok h

theorem updateAllSlack_forall₂ :
    ∀ l : List Task,
      List.Forall₂ (fun u t => t = { u with slack := u.LS - u.ES }) l (updateAllSlack l) := by
  intro l
  induction l with
  | nil => exact .nil
  | cons task rest ih => exact .cons rfl ih

/-- Unfolding a successful run of the whole pipeline into its stages. -/
theorem runCpm_ok_elim {fuel : Nat} {tasks out : List Task} (h : runCpm fuel tasks = .ok out) :
    ∃ t1 t2 t3, updateAllEarlyVars fuel tasks = .ok t1 ∧ populateSuccessors t1 = .ok t2 ∧
      updateAllLateVars fuel t2 = .ok t3 ∧ out = updateAllSlack t3 := by
  rcases h1 : updateAllEarlyVars fuel tasks with e | t1
  · simp [runCpm, h1] at h
  · rcases h2 : populateSuccessors t1 with e | t2
    · simp [runCpm, h1, h2] at h
    · rcases h3 : updateAllLateVars fuel t2 with e | t3
      · simp [runCpm, h1, h2, h3] at h
      · refine ⟨t1, t2, t3, ?_, h2, h3, ?_⟩
        · exact h1 ▸ rfl
        · have h' : updateAllSlack t3 = out := by simpa [runCpm, h1, h2, h3] using h
          exact h'.symm

/-! ### Closed form of `populateSuccessors` -/

/-- The successor names one task record (name `p.1`, dependency list
`p.2`) pushes onto the task named `x`: one copy of `p.1` per occurrence
of `x` in `p.2`. -/
def contrib (x : String) (p : String × List String) : List String :=
  (p.2.filter (fun d => d = x)).map (fun _ => p.1)

/-- All successor names accumulated onto the task named `x` by
processing `pairs` in order. -/
def pairsSucc (x : String) (pairs : List (String × List String)) : List String :=
  pairs.bind (contrib x)

theorem mem_contrib {y x : String} {p : String × List String} :
    y ∈ contrib x p ↔ p.1 = y ∧ x ∈ p.2 := by
  constructor
  · intro hy
    rcases List.mem_map.mp hy with ⟨d, hd, rfl⟩
    have := List.mem_filter.mp hd
    refine ⟨rfl, ?_⟩
    have hdx : d = x := of_decide_eq_true this.2
    exact hdx ▸ this.1
  · rintro ⟨rfl, hx⟩
    exact List.mem_map.mpr ⟨x, List.mem_filter.mpr ⟨hx, by simp⟩, rfl⟩

theorem mem_pairsSucc {y x : String} {pairs : List (String × List String)} :
    y ∈ pairsSucc x pairs ↔ ∃ p ∈ pairs, p.1 = y ∧ x ∈ p.2 := by
  simp only [pairsSucc, List.mem_bind]
  constructor
  · rintro ⟨p, hp, hy⟩
    exact ⟨p, hp, mem_contrib.mp hy⟩
  · rintro ⟨p, hp, hy⟩
    exact ⟨p, hp, mem_contrib.mpr hy⟩

theorem pushSuccessor_forall₂ {d s : String} :
    ∀ {l out : List Task}, (l.map Task.name).Nodup → pushSuccessor d s l = some out →
      List.Forall₂ (fun u t =>
        (u.name = d → t = { u with successors := u.successors ++ [s] }) ∧
        (u.name ≠ d → t = u)) l out := by
  intro l
  induction l with
  | nil => intro out _ h; simp [pushSuccessor] at h
  | cons t rest ih =>
    intro out hnd h
    have hnd' : (∀ x ∈ rest, ¬x.name = t.name) ∧ (List.map Task.name rest).Nodup := by
      simpa using hnd
    by_cases hname : t.name = d
    · have hout : ({ t with successors := t.successors ++ [s] } :: rest) = out := by
        simpa [pushSuccessor, hname] using h
      subst hout
      refine .cons ⟨fun _ => rfl, fun hc => absurd hname hc⟩ (forall₂_refl_of ?_)
      intro u hu
      refine ⟨fun hc => ?_, fun _ => rfl⟩
      exact absurd (hc.trans hname.symm) (hnd'.1 u hu)
    · rcases hrest : pushSuccessor d s rest with _ | out'
      · simp [pushSuccessor, hname, hrest] at h
      · have hout : (t :: out') = out := by
          simpa [pushSuccessor, hname, hrest] using h
        subst hout
        exact .cons ⟨fun hc => absurd hc hname, fun _ => rfl⟩ (ih hnd'.2 hrest)

/-- The pointwise relations used below all preserve the task's name. -/
theorem forall₂_names_eq {R : Task → Task → Prop} (hR : ∀ u t, R u t → t.name = u.name) :
    ∀ {l out : List Task}, List.Forall₂ R l out → out.map Task.name = l.map Task.name := by
  intro l out h
  induction h with
  | nil => rfl
  | cons hab _ ih => simpa [hR _ _ hab] using ih

theorem pushSuccessors_ok {s : String} :
    ∀ {deps : List String} {l out : List Task}, (l.map Task.name).Nodup →
      pushSuccessors s deps l = .ok out →
      List.Forall₂ (fun u t =>
        t = { u with successors := u.successors ++ contrib u.name (s, deps) }) l out := by
  intro deps
  induction deps with
  | nil =>
    intro l out _ h
    have : l = out := by simpa [pushSuccessors] using h
    subst this
    refine forall₂_refl_of fun u _ => ?_
    simp [contrib]
  | cons dep rest ih =>
    intro l out hnd h
    rcases hpush : pushSuccessor dep s l with _ | l1
    · simp [pushSuccessors, hpush] at h
    · have h1 := pushSuccessor_forall₂ hnd hpush
      have hnames : l1.map Task.name = l.map Task.name :=
        forall₂_names_eq (by
          intro u t ht
          by_cases hu : u.name = dep
          · rw [ht.1 hu]
          · rw [ht.2 hu]) h1
      have hnd1 : (l1.map Task.name).Nodup := by rw [hnames]; exact hnd
      have h2 := ih hnd1 (by simpa [pushSuccessors, hpush] using h)
      refine forall₂_comp ?_ h1 h2
      intro u u1 t hr1 hr2
      by_cases hu : u.name = dep
      · have hu1 : u1 = { u with successors := u.successors ++ [s] } := hr1.1 hu
        subst hu1
        rw [hr2]
        simp [contrib, List.filter_cons, hu.symm]
      · have hu1 : u1 = u := hr1.2 hu
        rw [hr2, hu1]
        have hne : ¬(dep = u.name) := fun hc => hu hc.symm
        simp [contrib, List.filter_cons, hne]

theorem populateSuccessorsGo_ok :
    ∀ {pairs : List (String × List String)} {l out : List Task}, (l.map Task.name).Nodup →
      populateSuccessorsGo pairs l = .ok out →
      List.Forall₂ (fun u t =>
        t = { u with successors := u.successors ++ pairsSucc u.name pairs }) l out := by
  intro pairs
  induction pairs with
  | nil =>
    intro l out _ h
    have : l = out := by simpa [populateSuccessorsGo] using h
    subst this
    refine forall₂_refl_of fun u _ => ?_
    simp [pairsSucc]
  | cons p rest ih =>
    intro l out hnd h
    rcases hpush : pushSuccessors p.1 p.2 l with e | l1
    · rcases p with ⟨n, deps⟩
      simp [populateSuccessorsGo, hpush] at h
    · have h1 := pushSuccessors_ok hnd hpush
      have hnames : l1.map Task.name = l.map Task.name :=
        forall₂_names_eq (by intro u t ht; rw [ht]) h1
      have hnd1 : (l1.map Task.name).Nodup := by rw [hnames]; exact hnd
      have h2 := ih hnd1 (by
        rcases p with ⟨n, deps⟩
        simpa [populateSuccessorsGo, hpush] using h)
      refine forall₂_comp ?_ h1 h2
      intro u u1 t hr1 hr2
      subst hr1
      rw [hr2]
      simp [pairsSucc, List.cons_bind, List.append_assoc]

theorem populateSuccessors_ok {l out : List Task} (hnd : (l.map Task.name).Nodup)
    (h : populateSuccessors l = .ok out) :
    List.Forall₂ (fun u t =>
      t = { u with successors :=
        u.successors ++ pairsSucc u.name (l.map fun w => (w.name, w.dependencies)) }) l out :=
  populateSuccessorsGo_ok hnd h

/-! ### Enough fuel exists on an acyclic graph -/

/-- On a dependency relation that strictly decreases a rank and whose
names all resolve, `getEarlyStartScore` succeeds once the fuel exceeds
the rank. -/
theorem getEarlyStartScore_ok_of_rank {tl : List Task} {rank : String → Nat}
    (hrank : ∀ t ∈ tl, ∀ d ∈ t.dependencies, rank d < rank t.name)
    (hres : ∀ t ∈ tl, ∀ d ∈ t.dependencies, (getTaskFromList d tl).isSome) :
    ∀ n, ∀ t ∈ tl, rank t.name < n → ∃ v, getEarlyStartScore n t tl = .ok v := by
  intro n
  induction n using Nat.strong_induction_on with
  | _ n ih =>
    intro t ht hlt
    match n, hlt with
    | m + 1, hlt =>
      by_cases hd : t.dependencies.isEmpty
      · exact ⟨0, by simp [getEarlyStartScore, hd]⟩
      · have hint : ∀ d ∈ t.dependencies,
            ∃ u w, getTaskFromList d tl = some u ∧ getEarlyStartScore m u tl = .ok w := by
          intro d hdin
          rcases getTaskFromList_isSome_iff.mp (hres t ht d hdin) with ⟨u, hu⟩
          rcases getTaskFromList_some hu with ⟨humem, huname⟩
          have hrd : rank d < rank t.name := hrank t ht d hdin
          have hm : rank u.name < m := by rw [huname]; omega
          rcases ih m (by omega) u humem hm with ⟨w, hw⟩
          exact ⟨u, w, hu, hw⟩
        rcases esLoopF_ok_intro hint 0 with ⟨v, hv⟩
        exact ⟨v, by simpa [getEarlyStartScore, hd] using hv⟩

/-- On a successor relation that strictly increases a rank bounded by
`B`, `getLateFinishScore` succeeds once the fuel reaches `B - rank`. -/
theorem getLateFinishScore_ok_of_corank {tl : List Task} {rank : String → Nat} {B : Nat}
    (hrank2 : ∀ t ∈ tl, ∀ s ∈ t.successors, rank t.name < rank s)
    (hres2 : ∀ t ∈ tl, ∀ s ∈ t.successors, (getTaskFromList s tl).isSome)
    (hB : ∀ t ∈ tl, rank t.name < B) :
    ∀ n, ∀ t ∈ tl, B - rank t.name ≤ n → ∃ v, getLateFinishScore n t tl = .ok v := by
  intro n
  induction n using Nat.strong_induction_on with
  | _ n ih =>
    intro t ht hle
    have hBt := hB t ht
    match n, hle with
    | 0, hle => omega
    | m + 1, hle =>
      by_cases hs : t.successors.isEmpty
      · exact ⟨t.EF, by simp [getLateFinishScore, hs]⟩
      · have hint : ∀ s ∈ t.successors,
            ∃ u w, getTaskFromList s tl = some u ∧ getLateFinishScore m u tl = .ok w := by
          intro s hsin
          rcases getTaskFromList_isSome_iff.mp (hres2 t ht s hsin) with ⟨u, hu⟩
          rcases getTaskFromList_some hu with ⟨humem, huname⟩
          have hrs : rank t.name < rank s := hrank2 t ht s hsin
          have hBu := hB u humem
          have hm : B - rank u.name ≤ m := by rw [huname]; omega
          rcases ih m (by omega) u humem hm with ⟨w, hw⟩
          exact ⟨u, w, hu, hw⟩
        rcases lfLoopF_ok_intro hint INT_MAX with ⟨v, hv⟩
        exact ⟨v, by simpa [getLateFinishScore, hs] using hv⟩

theorem le_foldr_max : ∀ {l : List Nat} {x : Nat}, x ∈ l → x ≤ l.foldr max 0 := by
  intro l
  induction l with
  | nil => intro x hx; cases hx
  | cons a l ih =>
    intro x hx
    rcases List.mem_cons.mp hx with rfl | hx
    · exact Nat.le_max_left _ _
    · exact le_trans (ih hx) (Nat.le_max_right _ _)

/-! ### Field bookkeeping across the stages -/

theorem earlyStep_fields {fuel : Nat} {full : List Task} {u t : Task}
    (h : EarlyStep fuel full u t) :
    t.name = u.name ∧ t.duration = u.duration ∧ t.dependencies = u.dependencies ∧
      t.successors = u.successors ∧ t.EF = t.ES + u.duration := by
  rcases h with ⟨_, h2⟩
  rw [h2]
  simp

theorem lateStep_fields {fuel : Nat} {full : List Task} {u t : Task}
    (h : LateStep fuel full u t) :
    t.name = u.name ∧ t.duration = u.duration ∧ t.dependencies = u.dependencies ∧
      t.successors = u.successors ∧ t.ES = u.ES ∧ t.EF = u.EF ∧ t.LS = t.LF - u.duration := by
  rcases h with ⟨_, h2⟩
  rw [h2]
  simp

/-- With pairwise-distinct names, a name determines the member. -/
theorem eq_of_name_eq_nodup {tl : List Task} (hnd : (tl.map Task.name).Nodup)
    {u v : Task} (hu : u ∈ tl) (hv : v ∈ tl) (hname : u.name = v.name) : u = v := by
  have h1 := getTaskFromList_of_mem_nodup hnd hu
  have h2 := getTaskFromList_of_mem_nodup hnd hv
  rw [hname] at h1
  rw [h1] at h2
  exact (Option.some.injEq _ _).mp h2

/-- Every member of the list after the forward pass and successor
population corresponds by name to an input task, carries that task's
static fields, stores its forward value in `ES` with `EF = ES +
duration`, and has as successors exactly the names of the input tasks
depending on it; conversely every input task survives into that list. -/
theorem t2_member_origin {fuel : Nat} {tasks t1 t2 : List Task}
    (hnodup : (tasks.map Task.name).Nodup)
    (hinit : ∀ t ∈ tasks, t.successors = [])
    (h1 : updateAllEarlyVars fuel tasks = .ok t1)
    (h2 : populateSuccessors t1 = .ok t2) :
    t1.map Task.name = tasks.map Task.name ∧
    t2.map Task.name = tasks.map Task.name ∧
    (∀ u2 ∈ t2, ∃ u0 ∈ tasks, u0.name = u2.name ∧ u0.duration = u2.duration ∧
      u0.dependencies = u2.dependencies ∧ getEarlyStartScore fuel u0 tasks = .ok u2.ES ∧
      u2.EF = u2.ES + u2.duration ∧
      (∀ s, s ∈ u2.successors ↔ ∃ w ∈ tasks, w.name = s ∧ u2.name ∈ w.dependencies)) ∧
    (∀ u0 ∈ tasks, ∃ u2 ∈ t2, u2.name = u0.name) := by
  have hF1 := updateAllEarlyVars_ok h1
  have hn1 : t1.map Task.name = tasks.map Task.name :=
    forall₂_names_eq (fun u t ht => (earlyStep_fields ht).1) hF1
  have hnd1 : (t1.map Task.name).Nodup := by rw [hn1]; exact hnodup
  have hF2 := populateSuccessors_ok hnd1 h2
  have hn2 : t2.map Task.name = t1.map Task.name :=
    forall₂_names_eq (fun u t ht => by rw [ht]) hF2
  refine ⟨hn1, hn2.trans hn1, ?_, ?_⟩
  · intro u2 hu2
    rcases forall₂_mem_right hF2 hu2 with ⟨u1, hu1, hrel2⟩
    rcases forall₂_mem_right hF1 hu1 with ⟨u0, hu0, hrel1⟩
    rcases earlyStep_fields hrel1 with ⟨hname1, hdur1, hdep1, hsucc1, hEF1⟩
    have hname2 : u2.name = u1.name := by rw [hrel2]
    have hdur2 : u2.duration = u1.duration := by rw [hrel2]
    have hdep2 : u2.dependencies = u1.dependencies := by rw [hrel2]
    have hES2 : u2.ES = u1.ES := by rw [hrel2]
    have hEF2 : u2.EF = u1.EF := by rw [hrel2]
    have hsucc2 : u2.successors =
        u1.successors ++ pairsSucc u1.name (t1.map fun w => (w.name, w.dependencies)) := by
      rw [hrel2]
    refine ⟨u0, hu0, by rw [hname2, hname1], by rw [hdur2, hdur1],
      by rw [hdep2, hdep1], by rw [hES2]; exact hrel1.1, by omega, ?_⟩
    intro s
    rw [hsucc2, hsucc1, hinit u0 hu0]
    simp only [List.nil_append]
    rw [mem_pairsSucc]
    constructor
    · rintro ⟨p, hp, hps, hpx⟩
      rcases List.mem_map.mp hp with ⟨w1, hw1, rfl⟩
      rcases forall₂_mem_right hF1 hw1 with ⟨w0, hw0, hwrel⟩
      rcases earlyStep_fields hwrel with ⟨hwname, _, hwdep, _, _⟩
      refine ⟨w0, hw0, ?_, ?_⟩
      · rw [← hwname]; exact hps
      · rw [← hwdep, hname2]; exact hpx
    · rintro ⟨w0, hw0, hwname, hwdep⟩
      rcases forall₂_mem_left hF1 hw0 with ⟨w1, hw1, hwrel⟩
      rcases earlyStep_fields hwrel with ⟨hwname1, _, hwdep1, _, _⟩
      refine ⟨(w1.name, w1.dependencies), List.mem_map_of_mem _ hw1, ?_, ?_⟩
      · show w1.name = s
        rw [hwname1]
        exact hwname
      · show u1.name ∈ w1.dependencies
        rw [hwdep1, ← hname2]
        exact hwdep
  · intro u0 hu0
    rcases forall₂_mem_left hF1 hu0 with ⟨u1, hu1, hrel1⟩
    rcases forall₂_mem_left hF2 hu1 with ⟨u2, hu2, hrel2⟩
    refine ⟨u2, hu2, ?_⟩
    have : u2.name = u1.name := by rw [hrel2]
    rw [this, (earlyStep_fields hrel1).1]

/-! ### The backward pass dominates the forward pass -/

/-- On a valid DAG whose early-finish values stay below `INT_MAX`,
every task's late finish (as computed by `getLateFinishScore` over the
successor-populated list) is at least its early finish. -/
theorem backward_ge_forward {fuel : Nat} {tasks t1 t2 : List Task} {rank : String → Nat}
    (hnodup : (tasks.map Task.name).Nodup)
    (hinit : ∀ t ∈ tasks, t.successors = [])
    (hrank : ∀ t ∈ tasks, ∀ d ∈ t.dependencies, rank d < rank t.name)
    (h1 : updateAllEarlyVars fuel tasks = .ok t1)
    (h2 : populateSuccessors t1 = .ok t2)
    (hEFbound : ∀ u ∈ t2, u.EF ≤ INT_MAX) :
    ∀ u ∈ t2, ∀ g w, getLateFinishScore g u t2 = .ok w → u.EF ≤ w := by
  obtain ⟨hn1, hn2, horigin, hsurj⟩ := t2_member_origin hnodup hinit h1 h2
  set B : Nat := ((t2.map fun t => rank t.name).foldr max 0) + 1 with hBdef
  have hB : ∀ u ∈ t2, rank u.name < B := by
    intro u hu
    have hfold : rank u.name ≤ (t2.map fun t => rank t.name).foldr max 0 :=
      le_foldr_max (List.mem_map_of_mem (fun t => rank t.name) hu)
    omega
  have main : ∀ n, ∀ u ∈ t2, B - rank u.name ≤ n →
      ∀ g w, getLateFinishScore g u t2 = .ok w → u.EF ≤ w := by
    intro n
    induction n using Nat.strong_induction_on with
    | _ n ih =>
      intro u hu hle g w hw
      by_cases hs : u.successors = []
      · have := getLateFinishScore_leaf hw hs
        omega
      · rcases getLateFinishScore_attained hw hs with hmax | ⟨s, hsin, f', su, sw, hfind, hrec, hveq⟩
        · rw [hmax]; exact hEFbound u hu
        · rcases getTaskFromList_some hfind with ⟨humem, huname⟩
          rcases horigin u hu with ⟨u0, hu0, hname0, hdur0, hdep0, hES0, hEF0, hsucciff⟩
          rcases (hsucciff s).mp hsin with ⟨w0, hw0, hw0name, hw0dep⟩
          rcases horigin su humem with ⟨su0, hsu0, hsname0, hsdur0, hsdep0, hsES0, hsEF0, _⟩
          have hsu0w0 : su0 = w0 :=
            eq_of_name_eq_nodup hnodup hsu0 hw0 (by rw [hsname0, huname, hw0name])
          have hudep : u.name ∈ su0.dependencies := by rw [hsu0w0]; exact hw0dep
          have hranklt : rank u.name < rank su.name := by
            have hudep2 : u.name ∈ su.dependencies := by rw [← hsdep0]; exact hudep
            have := hrank su0 hsu0 u.name hudep
            rw [hsname0] at this
            have hun : u0.name = u.name := hname0
            rw [← hun]
            rw [← hun] at this
            exact this
          have hBsu := hB su humem
          have hsu_le : su.EF ≤ sw :=
            ih (B - rank su.name) (by omega) su humem (le_refl _) f' sw hrec
          rcases getEarlyStartScore_dep_bound hsES0 hudep with ⟨f2, ud, wd, hfindu, hESud, hle2⟩
          rcases getTaskFromList_some hfindu with ⟨hudmem, hudname⟩
          have hudu0 : ud = u0 :=
            eq_of_name_eq_nodup hnodup hudmem hu0 (by rw [hudname, hname0])
          rw [hudu0] at hESud hle2
          have hwdES : wd = u.ES := getEarlyStartScore_unique hESud hES0
          have hud : u0.duration = u.duration := hdur0
          have : u.EF ≤ su.ES := by
            rw [hEF0]
            rw [hwdES, hud] at hle2
            exact hle2
          have hsud : su0.duration = su.duration := hsdur0
          omega
  intro u hu g w hw
  exact main (B - rank u.name) u hu (le_refl _) g w hw

/-! ### The project-length fold of `outputTimelineCSV` -/

theorem foldlEF_ge_acc :
    ∀ (l : List Task) (acc : Int), acc ≤ l.foldl (fun a t => if t.EF > a then t.EF else a) acc := by
  intro l
  induction l with
  | nil => intro acc; simp
  | cons t rest ih =>
    intro acc
    have h1 : acc ≤ (if t.EF > acc then t.EF else acc) := by split <;> omega
    simpa [List.foldl_cons] using le_trans h1 (ih _)

theorem foldlEF_ge_mem :
    ∀ {l : List Task} {u : Task}, u ∈ l →
      ∀ acc, u.EF ≤ l.foldl (fun a t => if t.EF > a then t.EF else a) acc := by
  intro l
  induction l with
  | nil => intro u hu; cases hu
  | cons t rest ih =>
    intro u hu acc
    rcases List.mem_cons.mp hu with rfl | hu
    · have h1 : u.EF ≤ (if u.EF > acc then u.EF else acc) := by split <;> omega
      simpa [List.foldl_cons] using le_trans h1 (foldlEF_ge_acc rest _)
    · simpa [List.foldl_cons] using ih hu _

theorem foldlEF_attained :
    ∀ (l : List Task) (acc : Int),
      l.foldl (fun a t => if t.EF > a then t.EF else a) acc = acc ∨
      ∃ u ∈ l, l.foldl (fun a t => if t.EF > a then t.EF else a) acc = u.EF := by
  intro l
  induction l with
  | nil => intro acc; exact Or.inl rfl
  | cons t rest ih =>
    intro acc
    rcases ih (if t.EF > acc then t.EF else acc) with h | ⟨u, hu, hequ⟩
    · by_cases hgt : t.EF > acc
      · refine Or.inr ⟨t, List.mem_cons_self _ _, ?_⟩
        simp only [List.foldl_cons]
        rw [h]
        simp [hgt]
      · refine Or.inl ?_
        simp only [List.foldl_cons]
        rw [h]
        simp [hgt]
    · exact Or.inr ⟨u, List.mem_cons_of_mem _ hu, by simpa [List.foldl_cons] using hequ⟩

theorem projectLength_ge_mem {l : List Task} {u : Task} (hu : u ∈ l) :
    u.EF ≤ projectLength l :=
  foldlEF_ge_mem hu 0

theorem projectLength_nonneg (l : List Task) : 0 ≤ projectLength l :=
  foldlEF_ge_acc l 0

theorem projectLength_attained {l : List Task} (hne : l ≠ [])
    (hnn : ∀ u ∈ l, 0 ≤ u.EF) : ∃ u ∈ l, u.EF = projectLength l := by
  rcases foldlEF_attained l 0 with h0 | ⟨u, hu, hequ⟩
  · rcases List.exists_mem_of_ne_nil l hne with ⟨t, ht⟩
    have hle : t.EF ≤ projectLength l := projectLength_ge_mem ht
    have hz : projectLength l = 0 := h0
    exact ⟨t, ht, by have := hnn t ht; omega⟩
  · exact ⟨u, hu, hequ.symm⟩

theorem projectLength_congr :
    ∀ {l l' : List Task}, List.Forall₂ (fun a b => a.EF = b.EF) l l' →
      projectLength l = projectLength l' := by
  have aux : ∀ {l l' : List Task}, List.Forall₂ (fun a b => a.EF = b.EF) l l' →
      ∀ acc, l.foldl (fun a t => if t.EF > a then t.EF else a) acc =
        l'.foldl (fun a t => if t.EF > a then t.EF else a) acc := by
    intro l l' h
    induction h with
    | nil => intro acc; rfl
    | cons hab _ ih =>
      intro acc
      simp only [List.foldl_cons, hab]
      exact ih _
  intro l l' h
  exact aux h 0

/-! ### From the successor-populated list to the final output -/

/-- What the backward pass and the slack pass jointly do to each task. -/
def FinalStep (fuel : Nat) (t2 : List Task) (u o : Task) : Prop :=
  o.name = u.name ∧ o.duration = u.duration ∧ o.dependencies = u.dependencies ∧
  o.successors = u.successors ∧ o.ES = u.ES ∧ o.EF = u.EF ∧
  getLateFinishScore fuel u t2 = .ok o.LF ∧ o.LS = o.LF - u.duration ∧ o.slack = o.LS - o.ES

theorem runCpm_final_forall₂ {fuel : Nat} {t2 t3 out : List Task}
    (h3 : updateAllLateVars fuel t2 = .ok t3) (hout : out = updateAllSlack t3) :
    List.Forall₂ (FinalStep fuel t2) t2 out := by
  subst hout
  refine forall₂_comp ?_ (updateAllLateVars_ok h3) (updateAllSlack_forall₂ t3)
  intro u o3 o hls ho
  rcases hls with ⟨hlf, ho3⟩
  subst ho
  rw [ho3]
  refine ⟨rfl, rfl, rfl, rfl, rfl, rfl, ?_, rfl, rfl⟩
  simpa using hlf

/-- Every late-finish value stays below the maximal early finish
(durations non-negative). -/
theorem backward_le_max {fuel : Nat} {tasks t1 t2 : List Task} {rank : String → Nat}
    (hnodup : (tasks.map Task.name).Nodup)
    (hinit : ∀ t ∈ tasks, t.successors = [])
    (hrank : ∀ t ∈ tasks, ∀ d ∈ t.dependencies, rank d < rank t.name)
    (h1 : updateAllEarlyVars fuel tasks = .ok t1)
    (h2 : populateSuccessors t1 = .ok t2)
    (hdur : ∀ t ∈ tasks, 0 ≤ t.duration) :
    ∀ u ∈ t2, ∀ g w, getLateFinishScore g u t2 = .ok w → w ≤ projectLength t2 := by
  obtain ⟨hn1, hn2, horigin, hsurj⟩ := t2_member_origin hnodup hinit h1 h2
  set B : Nat := ((t2.map fun t => rank t.name).foldr max 0) + 1 with hBdef
  have hB : ∀ u ∈ t2, rank u.name < B := by
    intro u hu
    have hfold : rank u.name ≤ (t2.map fun t => rank t.name).foldr max 0 :=
      le_foldr_max (List.mem_map_of_mem (fun t => rank t.name) hu)
    omega
  have main : ∀ n, ∀ u ∈ t2, B - rank u.name ≤ n →
      ∀ g w, getLateFinishScore g u t2 = .ok w → w ≤ projectLength t2 := by
    intro n
    induction n using Nat.strong_induction_on with
    | _ n ih =>
      intro u hu hle g w hw
      by_cases hs : u.successors = []
      · have := getLateFinishScore_leaf hw hs
        have := projectLength_ge_mem hu
        omega
      · rcases List.exists_mem_of_ne_nil _ hs with ⟨s, hsin⟩
        rcases getLateFinishScore_succ_bound hw hsin with ⟨f', su, sw, hfind, hrec, hwle⟩
        rcases getTaskFromList_some hfind with ⟨humem, huname⟩
        rcases horigin u hu with ⟨u0, hu0, hname0, _, _, _, _, hsucciff⟩
        rcases (hsucciff s).mp hsin with ⟨w0, hw0, hw0name, hw0dep⟩
        rcases horigin su humem with ⟨su0, hsu0, hsname0, hsdur0, _, _, _, _⟩
        have hsu0w0 : su0 = w0 :=
          eq_of_name_eq_nodup hnodup hsu0 hw0 (by rw [hsname0, huname, hw0name])
        have hudep : u.name ∈ su0.dependencies := by rw [hsu0w0]; exact hw0dep
        have hranklt : rank u.name < rank su.name := by
          have h := hrank su0 hsu0 u.name hudep
          rw [hsname0] at h
          exact h
        have hBsu := hB su humem
        have hsw := ih (B - rank su.name) (by omega) su humem (le_refl _) f' sw hrec
        have hsdur : 0 ≤ su.duration := by rw [← hsdur0]; exact hdur su0 hsu0
        omega
  intro u hu g w hw
  exact main (B - rank u.name) u hu (le_refl _) g w hw

/-- A leaf attaining the maximal early finish exists (non-empty list,
non-negative durations). -/
theorem exists_max_leaf {fuel : Nat} {tasks t1 t2 : List Task} {rank : String → Nat}
    (hnodup : (tasks.map Task.name).Nodup)
    (hinit : ∀ t ∈ tasks, t.successors = [])
    (hrank : ∀ t ∈ tasks, ∀ d ∈ t.dependencies, rank d < rank t.name)
    (h1 : updateAllEarlyVars fuel tasks = .ok t1)
    (h2 : populateSuccessors t1 = .ok t2)
    (hdur : ∀ t ∈ tasks, 0 ≤ t.duration)
    (hne2 : t2 ≠ []) :
    ∃ u ∈ t2, u.successors = [] ∧ u.EF = projectLength t2 := by
  obtain ⟨hn1, hn2, horigin, hsurj⟩ := t2_member_origin hnodup hinit h1 h2
  set B : Nat := ((t2.map fun t => rank t.name).foldr max 0) + 1 with hBdef
  have hB : ∀ u ∈ t2, rank u.name < B := by
    intro u hu
    have hfold : rank u.name ≤ (t2.map fun t => rank t.name).foldr max 0 :=
      le_foldr_max (List.mem_map_of_mem (fun t => rank t.name) hu)
    omega
  have hnnEF : ∀ u ∈ t2, 0 ≤ u.EF := by
    intro u hu
    rcases horigin u hu with ⟨u0, hu0, _, hdur0, _, hES0, hEF0, _⟩
    have h1le := getEarlyStartScore_nonneg hES0
    have h2le : 0 ≤ u.duration := by rw [← hdur0]; exact hdur u0 hu0
    omega
  have main : ∀ n, ∀ u ∈ t2, B - rank u.name ≤ n → u.EF = projectLength t2 →
      ∃ v ∈ t2, v.successors = [] ∧ v.EF = projectLength t2 := by
    intro n
    induction n using Nat.strong_induction_on with
    | _ n ih =>
      intro u hu hle hEq
      by_cases hs : u.successors = []
      · exact ⟨u, hu, hs, hEq⟩
      · rcases List.exists_mem_of_ne_nil _ hs with ⟨s, hsin⟩
        rcases horigin u hu with ⟨u0, hu0, hname0, hdur0, _, hES0, hEF0, hsucciff⟩
        rcases (hsucciff s).mp hsin with ⟨w0, hw0, hw0name, hw0dep⟩
        rcases hsurj w0 hw0 with ⟨su, humem, hsuname⟩
        rcases horigin su humem with ⟨su0, hsu0, hsname0, hsdur0, _, hsES0, hsEF0, _⟩
        have hsu0w0 : su0 = w0 :=
          eq_of_name_eq_nodup hnodup hsu0 hw0 (by rw [hsname0, hsuname])
        have hudep : u.name ∈ su0.dependencies := by rw [hsu0w0]; exact hw0dep
        rcases getEarlyStartScore_dep_bound hsES0 hudep with ⟨f2, ud, wd, hfindu, hESud, hle2⟩
        rcases getTaskFromList_some hfindu with ⟨hudmem, hudname⟩
        have hudu0 : ud = u0 :=
          eq_of_name_eq_nodup hnodup hudmem hu0 (by rw [hudname, hname0])
        rw [hudu0] at hESud hle2
        have hwdES : wd = u.ES := getEarlyStartScore_unique hESud hES0
        have hsdur : 0 ≤ su.duration := by rw [← hsdur0]; exact hdur su0 hsu0
        have hsuEFle : su.EF ≤ projectLength t2 := projectLength_ge_mem humem
        have hsuEF : su.EF = projectLength t2 := by
          rw [hwdES, hdur0] at hle2
          omega
        have hranklt : rank u.name < rank su.name := by
          have h := hrank su0 hsu0 u.name hudep
          rw [hsname0] at h
          exact h
        have hBsu := hB su humem
        exact ih (B - rank su.name) (by omega) su humem (le_refl _) hsuEF
  rcases projectLength_attained hne2 hnnEF with ⟨u, hu, huEF⟩
  exact main (B - rank u.name) u hu (le_refl _) huEF

/-! ### Transporting chains along pointwise correspondences -/

theorem forall₂_map_eq {α : Type} {S : Task → Task → Prop} {f : Task → α}
    (hf : ∀ a b, S a b → f b = f a) :
    ∀ {l l' : List Task}, List.Forall₂ S l l' → l'.map f = l.map f := by
  intro l l' h
  induction h with
  | nil => rfl
  | cons hab _ ih => simpa [hf _ _ hab] using ih

theorem build_partner_list {P : Task → Task → Prop} :
    ∀ l : List Task, (∀ x ∈ l, ∃ y, P x y) → ∃ l', List.Forall₂ P l l' := by
  intro l
  induction l with
  | nil => intro _; exact ⟨[], .nil⟩
  | cons a rest ih =>
    intro h
    rcases h a (List.mem_cons_self _ _) with ⟨b, hb⟩
    rcases ih (fun x hx => h x (List.mem_cons_of_mem _ hx)) with ⟨rest', hrest⟩
    exact ⟨b :: rest', .cons hb hrest⟩

theorem chain'_transport {R S : Task → Task → Prop}
    (hpres : ∀ a b a' b', R a b → S a a' → S b b' → R a' b') :
    ∀ {l l' : List Task}, List.Chain' R l → List.Forall₂ S l l' → List.Chain' R l' := by
  intro l
  induction l with
  | nil => intro l' _ h; cases h; exact List.chain'_nil
  | cons a rest ih =>
    intro l' hc h
    cases h with
    | cons hab htail =>
      rename_i b rest'
      cases rest with
      | nil => cases htail; simp
      | cons c rest2 =>
        cases htail with
        | cons hcd htail2 =>
          rename_i d rest2'
          have hc' := (List.chain'_cons.mp hc)
          refine List.chain'_cons.mpr ⟨?_, ?_⟩
          · exact hpres a c b d hc'.1 hab hcd
          · exact ih hc'.2 (.cons hcd htail2)

theorem forall₂_head? {S : Task → Task → Prop} {l l' : List Task}
    (h : List.Forall₂ S l l') {x : Task} (hx : l.head? = some x) :
    ∃ y, l'.head? = some y ∧ S x y := by
  cases h with
  | nil => simp at hx
  | cons hab htail =>
    rename_i a b l1 l2
    have hxa : a = x := by simpa using hx
    subst hxa
    exact ⟨b, rfl, hab⟩

theorem forall₂_getLast? {S : Task → Task → Prop} :
    ∀ {l l' : List Task}, List.Forall₂ S l l' → ∀ {x : Task}, l.getLast? = some x →
      ∃ y, l'.getLast? = some y ∧ S x y := by
  intro l l' h
  induction h with
  | nil => intro x hx; simp at hx
  | cons hab htail ih =>
    rename_i a b l1 l2
    intro x hx
    cases htail with
    | nil =>
      have hxa : a = x := by simpa using hx
      subst hxa
      exact ⟨b, rfl, hab⟩
    | cons hcd htail2 =>
      rename_i c d rest rest'
      have hx' : (c :: rest).getLast? = some x := by
        simpa [List.getLast?_cons_cons] using hx
      rcases ih hx' with ⟨y, hy, hxy⟩
      refine ⟨y, ?_, hxy⟩
      simpa [List.getLast?_cons_cons] using hy

/-- From any critical task (late finish = early finish) a chain of
dependency edges of critical tasks reaches back to a task with no
dependencies, and the chain's durations sum to the task's early
finish. -/
theorem chain_to_root {fuel : Nat} {tasks t1 t2 t3 : List Task} {rank : String → Nat}
    (hnodup : (tasks.map Task.name).Nodup)
    (hinit : ∀ t ∈ tasks, t.successors = [])
    (hrank : ∀ t ∈ tasks, ∀ d ∈ t.dependencies, rank d < rank t.name)
    (h1 : updateAllEarlyVars fuel tasks = .ok t1)
    (h2 : populateSuccessors t1 = .ok t2)
    (h3 : updateAllLateVars fuel t2 = .ok t3)
    (hdur : ∀ t ∈ tasks, 0 ≤ t.duration)
    (hEFbound : ∀ u ∈ t2, u.EF ≤ INT_MAX) :
    ∀ n, ∀ u ∈ t2, rank u.name < n → (∃ g, getLateFinishScore g u t2 = .ok u.EF) →
      ∃ l, l ≠ [] ∧ l.getLast? = some u ∧
        (∀ x ∈ l, x ∈ t2 ∧ ∃ g, getLateFinishScore g x t2 = .ok x.EF) ∧
        (∃ hd, l.head? = some hd ∧ hd.dependencies = []) ∧
        List.Chain' (fun a b => a.name ∈ b.dependencies) l ∧
        (l.map Task.duration).sum = u.EF := by
  obtain ⟨hn1, hn2, horigin, hsurj⟩ := t2_member_origin hnodup hinit h1 h2
  have hnd2 : (t2.map Task.name).Nodup := by rw [hn2]; exact hnodup
  have hF3 := updateAllLateVars_ok h3
  intro n
  induction n using Nat.strong_induction_on with
  | _ n ih =>
    intro u hu hlt hucrit
    rcases horigin u hu with ⟨u0, hu0, hname0, hdur0, hdep0, hES0, hEF0, hsucciff⟩
    by_cases hdeps : u.dependencies = []
    · have hES0' : u.ES = 0 := getEarlyStartScore_empty hES0 (by rw [hdep0]; exact hdeps)
      refine ⟨[u], by simp, by simp, ?_, ⟨u, by simp, hdeps⟩, by simp, ?_⟩
      · intro x hx
        have hxu : x = u := by simpa using hx
        subst hxu
        exact ⟨hu, hucrit⟩
      · simp only [List.map_cons, List.map_nil, List.sum_cons, List.sum_nil]
        omega
    · have hdeps0 : u0.dependencies ≠ [] := by rw [hdep0]; exact hdeps
      rcases getEarlyStartScore_attained hES0 hdeps0 hdur with
        ⟨d, hd, f', ud, wd, hfindud, hESud, hveq⟩
      rcases getTaskFromList_some hfindud with ⟨hudmem, hudname⟩
      rcases hsurj ud hudmem with ⟨p, hp, hpname⟩
      rcases horigin p hp with ⟨p0, hp0, hp0name, hp0dur, hp0dep, hpES0, hpEF0, hpsucciff⟩
      have hp0ud : p0 = ud := eq_of_name_eq_nodup hnodup hp0 hudmem (by rw [hp0name, hpname])
      rw [hp0ud] at hpES0
      have hpES : p.ES = wd := getEarlyStartScore_unique hpES0 hESud
      have hdurpe : ud.duration = p.duration := by rw [← hp0ud]; exact hp0dur
      have hpEF : p.EF = u.ES := by omega
      have husucc : u.name ∈ p.successors := by
        apply (hpsucciff u.name).mpr
        refine ⟨u0, hu0, hname0, ?_⟩
        rw [hpname, hudname]
        exact hd
      rcases forall₂_mem_left hF3 hp with ⟨o3, _, hls⟩
      have hplf : getLateFinishScore fuel p t2 = .ok o3.LF := hls.1
      rcases getLateFinishScore_succ_bound hplf husucc with ⟨f3, pu, pw, hfindpu, hrecpu, hlep⟩
      rcases getTaskFromList_some hfindpu with ⟨hpumem, hpuname⟩
      have hpuu : pu = u := eq_of_name_eq_nodup hnd2 hpumem hu hpuname
      rw [hpuu] at hrecpu hlep
      rcases hucrit with ⟨g, hucrit'⟩
      have hpwu : pw = u.EF := getLateFinishScore_unique hrecpu hucrit'
      have hlow := backward_ge_forward hnodup hinit hrank h1 h2 hEFbound p hp fuel o3.LF hplf
      have hlf_eq : o3.LF = p.EF := by omega
      have hpcrit : ∃ g, getLateFinishScore g p t2 = .ok p.EF :=
        ⟨fuel, by rw [← hlf_eq]; exact hplf⟩
      have hrankp : rank p.name < rank u.name := by
        have h := hrank u0 hu0 d hd
        rw [hname0] at h
        have hpd : p.name = d := by rw [hpname, hudname]
        rw [hpd]
        exact h
      rcases ih (rank u.name) hlt p hp hrankp hpcrit with
        ⟨l, hlne, hllast, hlmem, hlhead, hlchain, hlsum⟩
      refine ⟨l ++ [u], by simp, by simp [List.getLast?_concat], ?_, ?_, ?_, ?_⟩
      · intro x hx
        rcases List.mem_append.mp hx with hx | hx
        · exact hlmem x hx
        · have hxu : x = u := by simpa using hx
          subst hxu
          exact ⟨hu, ⟨g, hucrit'⟩⟩
      · rcases hlhead with ⟨hd', hhd, hhddeps⟩
        refine ⟨hd', ?_, hhddeps⟩
        cases l with
        | nil => exact absurd rfl hlne
        | cons a rest => simpa using hhd
      · rw [List.chain'_append]
        refine ⟨hlchain, by simp, ?_⟩
        intro x hx y hy
        rw [hllast] at hx
        obtain rfl : p = x := by simpa using hx
        obtain rfl : u = y := by simpa using hy
        have hpd : p.name = d := by rw [hpname, hudname]
        rw [hpd, ← hdep0]
        exact hd
      · rw [List.map_append, List.sum_append]
        simp only [List.map_cons, List.map_nil, List.sum_cons, List.sum_nil]
        omega

/-! ### Call-count instrumentation for the forward pass

The counters below mirror the exact control flow of
`getEarlyStartScore` and count how many times the recursion enters a
task with a given name; they quantify the (absent) memoization. -/

def countHit (tgt : String) (task : Task) : Nat :=
  if task.name = tgt then 1 else 0

/-- Counts, along the dependency loop of `getEarlyStartScore`, the
entries into tasks named `tgt`: the loop recursions happen in order and
stop at the first error, exactly as in `esLoopF`. -/
def esCallsLoopF (recES : Task → List Task → Except CpmErr Int)
    (recCount : Task → List Task → Nat) (taskList : List Task) : List String → Nat
  | [] => 0
  | depName :: rest =>
    match getTaskFromList depName taskList with
    | none => 0
    | some depTask =>
      recCount depTask taskList +
        (match recES depTask taskList with
         | .error _ => 0
         | .ok _ => esCallsLoopF recES recCount taskList rest)

/-- How many times `getEarlyStartScore`, started on `task`, enters a
task named `tgt` (the code has no memo table, so shared ancestors are
entered once per incoming path). -/
def esCallsTo (tgt : String) : Nat → Task → List Task → Nat
  | 0, task, _ => countHit tgt task
  | fuel + 1, task, taskList =>
    countHit tgt task +
      (if task.dependencies.isEmpty then 0
       else esCallsLoopF (fun t l => getEarlyStartScore fuel t l)
         (fun t l => esCallsTo tgt fuel t l) taskList task.dependencies)

/-- Total number of entries into tasks named `tgt` over a whole
`updateAllEarlyVars` pass (which calls `getEarlyStartScore` afresh for
every task of the list). -/
def passEsCallsTo (tgt : String) (fuel : Nat) (taskList : List Task) : Nat :=
  (taskList.map (fun t => esCallsTo tgt fuel t taskList)).sum

/-! ### Concrete inputs -/

/-- The spec's worked scenario: `a(2,[]), b(3,[a]), c(2,[a]), d(5,[b,c])`. -/
def demoLines : List String :=
  ["task,duration,dependencies", "a,2,", "b,3,a", "c,2,a", "d,5,b;c"]

def demoTasks : List Task :=
  [Task.make "a" 2 [], Task.make "b" 3 ["a"], Task.make "c" 2 ["a"],
   Task.make "d" 5 ["b", "c"]]

/-- A rank witnessing that `demoTasks` is a DAG. -/
def demoRank (n : String) : Nat :=
  if n = "a" then 0 else if n = "b" then 1 else if n = "c" then 1 else 2

/-- `demoTasks` after the forward pass and successor population. -/
def demoT2 : List Task :=
  [⟨"a", 2, [], ["b", "c"], 0, 2, 0, 0, 0⟩,
   ⟨"b", 3, ["a"], ["d"], 2, 5, 0, 0, 0⟩,
   ⟨"c", 2, ["a"], ["d"], 2, 4, 0, 0, 0⟩,
   ⟨"d", 5, ["b", "c"], [], 5, 10, 0, 0, 0⟩]

/-- The final output of the pipeline on `demoTasks` (matches the spec's
expected `ES/EF/LS/LF/slack` table). -/
def demoOut : List Task :=
  [⟨"a", 2, [], ["b", "c"], 0, 2, 0, 2, 0⟩,
   ⟨"b", 3, ["a"], ["d"], 2, 5, 2, 5, 0⟩,
   ⟨"c", 2, ["a"], ["d"], 2, 4, 3, 5, 1⟩,
   ⟨"d", 5, ["b", "c"], [], 5, 10, 5, 10, 0⟩]

/-- Two independent tasks: both are leaves, with different early
finishes. -/
def twoLeafLines : List String := ["task,duration,dependencies", "a,2,", "b,5,"]

def twoLeafOut : List Task :=
  [⟨"a", 2, [], [], 0, 2, 0, 2, 0⟩, ⟨"b", 5, [], [], 0, 5, 0, 5, 0⟩]

/-- A two-task dependency cycle. -/
def cycleLines : List String := ["task,duration,dependencies", "a,1,b", "b,1,a"]

def cycleTasks : List Task := [Task.make "a" 1 ["b"], Task.make "b" 1 ["a"]]

/-- Two records named `a`, plus a task depending on `a`. -/
def dupLines : List String := ["task,duration,dependencies", "a,2,", "a,5,", "b,1,a"]

def dupTasks : List Task :=
  [Task.make "a" 2 [], Task.make "a" 5 [], Task.make "b" 1 ["a"]]

def dupOut : List Task :=
  [⟨"a", 2, [], ["b"], 0, 2, 0, 2, 0⟩,
   ⟨"a", 5, [], [], 0, 5, 0, 5, 0⟩,
   ⟨"b", 1, ["a"], [], 2, 3, 2, 3, 0⟩]

/-- A task depending on a name with no record. -/
def danglingLines : List String := ["task,duration,dependencies", "a,1,z"]

def danglingTasks : List Task := [Task.make "a" 1 ["z"]]

/-- A diamond: `d` depends on `b` and `c`, both of which depend on `a`. -/
def diamond : List Task :=
  [Task.make "a" 1 [], Task.make "b" 1 ["a"], Task.make "c" 1 ["a"],
   Task.make "d" 1 ["b", "c"]]

/-- Two stacked diamonds sharing the middle node `d`. -/
def doubleDiamond : List Task :=
  diamond ++
    [Task.make "e" 1 ["d"], Task.make "f" 1 ["d"], Task.make "g" 1 ["e", "f"]]

/-! ### `populateSuccessors` changes nothing but the successor lists -/

def SameCore (u t : Task) : Prop :=
  t.name = u.name ∧ t.duration = u.duration ∧ t.dependencies = u.dependencies ∧
  t.ES = u.ES ∧ t.EF = u.EF ∧ t.LS = u.LS ∧ t.LF = u.LF ∧ t.slack = u.slack

theorem sameCore_refl (u : Task) : SameCore u u :=
  ⟨rfl, rfl, rfl, rfl, rfl, rfl, rfl, rfl⟩

theorem sameCore_trans {a b c : Task} (h1 : SameCore a b) (h2 : SameCore b c) :
    SameCore a c :=
  ⟨h2.1.trans h1.1, h2.2.1.trans h1.2.1, h2.2.2.1.trans h1.2.2.1,
   h2.2.2.2.1.trans h1.2.2.2.1, h2.2.2.2.2.1.trans h1.2.2.2.2.1,
   h2.2.2.2.2.2.1.trans h1.2.2.2.2.2.1,
   h2.2.2.2.2.2.2.1.trans h1.2.2.2.2.2.2.1,
   h2.2.2.2.2.2.2.2.trans h1.2.2.2.2.2.2.2⟩

theorem pushSuccessor_sameCore {d s : String} :
    ∀ {l out : List Task}, pushSuccessor d s l = some out → List.Forall₂ SameCore l out := by
  intro l
  induction l with
  | nil => intro out h; simp [pushSuccessor] at h
  | cons t rest ih =>
    intro out h
    by_cases hname : t.name = d
    · have hout : ({ t with successors := t.successors ++ [s] } :: rest) = out := by
        simpa [pushSuccessor, hname] using h
      subst hout
      exact .cons ⟨rfl, rfl, rfl, rfl, rfl, rfl, rfl, rfl⟩
        (forall₂_refl_of fun u _ => sameCore_refl u)
    · rcases hrest : pushSuccessor d s rest with _ | out'
      · simp [pushSuccessor, hname, hrest] at h
      · have hout : (t :: out') = out := by simpa [pushSuccessor, hname, hrest] using h
        subst hout
        exact .cons (sameCore_refl t) (ih hrest)

theorem pushSuccessors_sameCore {s : String} :
    ∀ {deps : List String} {l out : List Task}, pushSuccessors s deps l = .ok out →
      List.Forall₂ SameCore l out := by
  intro deps
  induction deps with
  | nil =>
    intro l out h
    have : l = out := by simpa [pushSuccessors] using h
    subst this
    exact forall₂_refl_of fun u _ => sameCore_refl u
  | cons dep rest ih =>
    intro l out h
    rcases hpush : pushSuccessor dep s l with _ | l1
    · simp [pushSuccessors, hpush] at h
    · exact @forall₂_comp Task Task Task SameCore SameCore SameCore
        (fun _ _ _ h1 h2 => sameCore_trans h1 h2) _ _ _ (pushSuccessor_sameCore hpush)
        (ih (by simpa [pushSuccessors, hpush] using h))

theorem populateSuccessorsGo_sameCore :
    ∀ {pairs : List (String × List String)} {l out : List Task},
      populateSuccessorsGo pairs l = .ok out → List.Forall₂ SameCore l out := by
  intro pairs
  induction pairs with
  | nil =>
    intro l out h
    have : l = out := by simpa [populateSuccessorsGo] using h
    subst this
    exact forall₂_refl_of fun u _ => sameCore_refl u
  | cons p rest ih =>
    intro l out h
    rcases hpush : pushSuccessors p.1 p.2 l with e | l1
    · rcases p with ⟨n, deps⟩
      simp [populateSuccessorsGo, hpush] at h
    · refine @forall₂_comp Task Task Task SameCore SameCore SameCore
        (fun _ _ _ h1 h2 => sameCore_trans h1 h2) _ _ _ (pushSuccessors_sameCore hpush)
        (ih ?_)
      rcases p with ⟨n, deps⟩
      simpa [populateSuccessorsGo, hpush] using h

theorem populateSuccessors_sameCore {l out : List Task}
    (h : populateSuccessors l = .ok out) : List.Forall₂ SameCore l out :=
  populateSuccessorsGo_sameCore h

/-! ### Error propagation in the forward pass -/

theorem esLoopF_error_of_none {tl : List Task} {rec : Task → List Task → Except CpmErr Int}
    {d : String} (hnone : getTaskFromList d tl = none) :
    ∀ {deps : List String}, d ∈ deps → ∀ acc, ∃ e, esLoopF rec tl deps acc = .error e := by
  intro deps
  induction deps with
  | nil => intro h; cases h
  | cons d' rest ih =>
    intro hmem acc
    rcases List.mem_cons.mp hmem with rfl | hmem
    · exact ⟨.taskNotFound d, by simp [esLoopF, hnone]⟩
    · rcases hfind : getTaskFromList d' tl with _ | u
      · exact ⟨.taskNotFound d', by simp [esLoopF, hfind]⟩
      · rcases hrec : rec u tl with e | w
        · exact ⟨e, by simp [esLoopF, hfind, hrec]⟩
        · rcases ih hmem (if w + u.duration > acc then w + u.duration else acc) with ⟨e, he⟩
          exact ⟨e, by simpa [esLoopF, hfind, hrec] using he⟩

theorem esLoopF_error_of_rec {tl : List Task} {rec : Task → List Task → Except CpmErr Int}
    {d : String} {u : Task} (hfind : getTaskFromList d tl = some u)
    (hrec : ∃ e, rec u tl = .error e) :
    ∀ {deps : List String}, d ∈ deps → ∀ acc, ∃ e, esLoopF rec tl deps acc = .error e := by
  intro deps
  induction deps with
  | nil => intro h; cases h
  | cons d' rest ih =>
    intro hmem acc
    rcases List.mem_cons.mp hmem with rfl | hmem
    · rcases hrec with ⟨e, he⟩
      exact ⟨e, by simp [esLoopF, hfind, he]⟩
    · rcases hfind' : getTaskFromList d' tl with _ | u'
      · exact ⟨.taskNotFound d', by simp [esLoopF, hfind']⟩
      · rcases hrec' : rec u' tl with e | w
        · exact ⟨e, by simp [esLoopF, hfind', hrec']⟩
        · rcases ih hmem (if w + u'.duration > acc then w + u'.duration else acc) with ⟨e, he⟩
          exact ⟨e, by simpa [esLoopF, hfind', hrec'] using he⟩

theorem dependency_not_isEmpty {t : Task} {d : String} (hd : d ∈ t.dependencies) :
    ¬t.dependencies.isEmpty := by
  cases hdep : t.dependencies with
  | nil => rw [hdep] at hd; cases hd
  | cons x xs => simp [hdep]

theorem getES_error_of_dangling {tl : List Task} {t : Task} {d : String}
    (hd : d ∈ t.dependencies) (hnone : getTaskFromList d tl = none) :
    ∀ fuel, ∃ e, getEarlyStartScore fuel t tl = .error e := by
  intro fuel
  match fuel with
  | 0 => exact ⟨.outOfFuel, rfl⟩
  | f + 1 =>
    rcases esLoopF_error_of_none hnone hd 0 with ⟨e, he⟩
    exact ⟨e, by simpa [getEarlyStartScore, dependency_not_isEmpty hd] using he⟩

theorem updateEarlyGo_error {fuel : Nat} {full : List Task} {t : Task}
    (hES : ∃ e, getEarlyStartScore fuel t full = .error e) :
    ∀ {l : List Task}, t ∈ l → ∃ e, updateEarlyGo fuel full l = .error e := by
  intro l
  induction l with
  | nil => intro h; cases h
  | cons a rest ih =>
    intro hmem
    rcases ha : getEarlyStartScore fuel a full with e | es
    · exact ⟨e, by simp [updateEarlyGo, ha]⟩
    · rcases List.mem_cons.mp hmem with rfl | hmem
      · rcases hES with ⟨e, he⟩
        rw [he] at ha
        cases ha
      · rcases ih hmem with ⟨e, he⟩
        exact ⟨e, by simp [updateEarlyGo, ha, he]⟩

theorem runCpm_error_of_early {fuel : Nat} {tl : List Task} {e : CpmErr}
    (h : updateAllEarlyVars fuel tl = .error e) : runCpm fuel tl = .error e := by
  simp [runCpm, h]

/-- When every dependency name of the loop resolves and every recursive
error is fuel exhaustion, a failing dependency loop can only have
exhausted its fuel (no `Task not found` throw is reachable). -/
theorem esLoopF_error_resolvable {tl : List Task} {f : Nat}
    (hsub : ∀ u ∈ tl, ∀ e, getEarlyStartScore f u tl = .error e → e = .outOfFuel) :
    ∀ {deps : List String}, (∀ d ∈ deps, (getTaskFromList d tl).isSome) →
      ∀ {acc : Int} {e : CpmErr},
        esLoopF (fun t l => getEarlyStartScore f t l) tl deps acc = .error e →
        e = .outOfFuel := by
  intro deps
  induction deps with
  | nil => intro _ acc e h; simp [esLoopF] at h
  | cons d rest ih =>
    intro hresd acc e h
    rcases hfind : getTaskFromList d tl with _ | u
    · have hd := hresd d (List.mem_cons_self _ _)
      rw [hfind] at hd
      simp at hd
    · rcases hrec : getEarlyStartScore f u tl with e' | w
      · have he' : e' = e := by simpa [esLoopF, hfind, hrec] using h
        have hu : u ∈ tl := (getTaskFromList_some hfind).1
        rw [← he']
        exact hsub u hu e' hrec
      · exact ih (fun d' hd' => hresd d' (List.mem_cons_of_mem _ hd'))
          (by simpa [esLoopF, hfind, hrec] using h)

/-- On an input whose dependency names all resolve, the only error
`getEarlyStartScore` can produce is fuel exhaustion: the recursion
never throws, it can only fail to terminate. -/
theorem getEarlyStartScore_error_resolvable {tl : List Task}
    (hres : ∀ t ∈ tl, ∀ d ∈ t.dependencies, (getTaskFromList d tl).isSome) :
    ∀ fuel, ∀ t ∈ tl, ∀ e, getEarlyStartScore fuel t tl = .error e → e = .outOfFuel := by
  intro fuel
  induction fuel with
  | zero =>
    intro t _ e h
    have h' : CpmErr.outOfFuel = e := by simpa [getEarlyStartScore] using h
    exact h'.symm
  | succ f ih =>
    intro t ht e h
    by_cases hd : t.dependencies.isEmpty
    · simp [getEarlyStartScore, hd] at h
    · have h' : esLoopF (fun t l => getEarlyStartScore f t l) tl t.dependencies 0 = .error e := by
        simpa [getEarlyStartScore, hd] using h
      exact esLoopF_error_resolvable ih (hres t ht) h'

/-- Lifting the previous fact through the forward pass: on a fully
resolving input a failing `updateAllEarlyVars` has exhausted its
fuel. -/
theorem updateEarlyGo_error_resolvable {fuel : Nat} {tl : List Task}
    (hres : ∀ t ∈ tl, ∀ d ∈ t.dependencies, (getTaskFromList d tl).isSome) :
    ∀ {l : List Task}, (∀ u ∈ l, u ∈ tl) → ∀ {e : CpmErr},
      updateEarlyGo fuel tl l = .error e → e = .outOfFuel := by
  intro l
  induction l with
  | nil => intro _ e h; simp [updateEarlyGo] at h
  | cons a rest ih =>
    intro hsub e h
    rcases ha : getEarlyStartScore fuel a tl with e' | es
    · have he' : e' = e := by simpa [updateEarlyGo, ha] using h
      rw [← he']
      exact getEarlyStartScore_error_resolvable hres fuel a
        (hsub a (List.mem_cons_self _ _)) e' ha
    · rcases hrest : updateEarlyGo fuel tl rest with e' | rest2
      · have he' : e' = e := by simpa [updateEarlyGo, ha, hrest] using h
        rw [← he']
        exact ih (fun u hu => hsub u (List.mem_cons_of_mem _ hu)) hrest
      · simp [updateEarlyGo, ha, hrest] at h

/-! ### The claims -/

/-- The full pipeline on the spec's worked scenario produces exactly the
table the spec lists. -/
theorem runCpm_demo : runCpm 10 demoTasks = .ok demoOut := by decide

/-- C1 counterexample: on the valid DAG with two independent tasks
`a(2)` and `b(5)` the engine runs successfully, both tasks have no
successors, the project finish time (`max EF`, as computed by
`projectLength`) is 5, yet task `a` ends with `LF = 2`: a node with no
successors does NOT get `LF = max(EF)` — the code gives each leaf its
own `EF` as `LF`. -/
theorem c1_counterexample :
    elixirMain 10 twoLeafLines = .ok twoLeafOut ∧
    projectLength twoLeafOut = 5 ∧
    ¬(∀ t ∈ twoLeafOut, t.successors = [] → t.LF = projectLength twoLeafOut) := by
  refine ⟨by decide, by decide, by decide⟩

/-- C1 (amended): after every successful run, each task with no
successors has `LF` equal to its OWN `EF` (`// No successors -> end of
project -> LF=EF`); that value equals the project finish `max(EF)` only
when the leaf's `EF` happens to be maximal. -/
theorem c1_leaf_lf_eq_own_ef {fuel : Nat} {tasks out : List Task}
    (h : runCpm fuel tasks = .ok out) :
    ∀ t ∈ out, t.successors = [] → t.LF = t.EF := by
  rcases runCpm_ok_elim h with ⟨t1, t2, t3, h1, h2, h3, hout⟩
  have hF := runCpm_final_forall₂ h3 hout
  intro t ht hts
  rcases forall₂_mem_right hF ht with ⟨u, hu, hfs⟩
  rcases hfs with ⟨hn, hdu, hde, hsu, hes, hef, hlf, hls, hsl⟩
  have hus : u.successors = [] := by rw [← hsu]; exact hts
  have hl := getLateFinishScore_leaf hlf hus
  omega

/-- Witness for C1's amended theorem at the spec scenario: the sole
leaf `d` has `LF = EF` (= 10). -/
theorem c1_witness :
    runCpm 10 demoTasks = .ok demoOut ∧
    (⟨"d", 5, ["b", "c"], [], 5, 10, 5, 10, 0⟩ : Task).LF =
      (⟨"d", 5, ["b", "c"], [], 5, 10, 5, 10, 0⟩ : Task).EF :=
  ⟨runCpm_demo,
   c1_leaf_lf_eq_own_ef runCpm_demo ⟨"d", 5, ["b", "c"], [], 5, 10, 5, 10, 0⟩
     (by decide) (by decide)⟩

/-- C2 (amended): a dependency cycle is NOT detected and nothing is
rejected: on an input whose dependency names all resolve but whose
graph contains a cycle (a non-empty set `S` of tasks closed under
stepping along dependency edges), the forward timing pass itself runs
and exhausts EVERY recursion-depth bound — `getEarlyStartScore` returns
`outOfFuel` (the fuel model of the C++ stack overflow, never a thrown
error) on every member at every fuel, and the pipeline always ends in
`outOfFuel`, producing no timing output. -/
theorem c2_cycle_never_terminates {tl S : List Task} (hSne : S ≠ [])
    (hsub : ∀ t ∈ S, t ∈ tl)
    (hstep : ∀ t ∈ S, ∃ d ∈ t.dependencies, ∃ u ∈ S, getTaskFromList d tl = some u)
    (hres : ∀ t ∈ tl, ∀ d ∈ t.dependencies, (getTaskFromList d tl).isSome) :
    ∀ fuel, (∀ t ∈ S, getEarlyStartScore fuel t tl = .error .outOfFuel) ∧
      updateAllEarlyVars fuel tl = .error .outOfFuel ∧
      runCpm fuel tl = .error .outOfFuel := by
  have hmain : ∀ fuel, ∀ t ∈ S, ∃ e, getEarlyStartScore fuel t tl = .error e := by
    intro fuel
    induction fuel with
    | zero => intro t _; exact ⟨.outOfFuel, rfl⟩
    | succ f ih =>
      intro t htS
      rcases hstep t htS with ⟨d, hd, u, huS, hfind⟩
      rcases esLoopF_error_of_rec hfind (ih u huS) hd 0 with ⟨e, he⟩
      exact ⟨e, by simpa [getEarlyStartScore, dependency_not_isEmpty hd] using he⟩
  intro fuel
  have hS : ∀ t ∈ S, getEarlyStartScore fuel t tl = .error .outOfFuel := by
    intro t htS
    rcases hmain fuel t htS with ⟨e, he⟩
    have heo := getEarlyStartScore_error_resolvable hres fuel t (hsub t htS) e he
    rw [heo] at he
    exact he
  rcases List.exists_mem_of_ne_nil S hSne with ⟨t0, ht0⟩
  rcases updateEarlyGo_error ⟨.outOfFuel, hS t0 ht0⟩ (hsub t0 ht0) with ⟨e, he⟩
  have heo := updateEarlyGo_error_resolvable hres (fun u hu => hu) he
  rw [heo] at he
  exact ⟨hS, he, runCpm_error_of_early he⟩

/-- C2 counterexample: the two-task cycle `a ↔ b` is not rejected
before the timing passes — loading succeeds (there is no cycle check),
and the forward timing pass itself runs and exhausts every tried
recursion bound (`outOfFuel`, i.e. unbounded recursion in the C++
code); no `CyclicDependency` rejection exists. -/
theorem c2_counterexample :
    loadCSV cycleLines = .ok cycleTasks ∧
    updateAllEarlyVars 10 cycleTasks = .error .outOfFuel ∧
    updateAllEarlyVars 100 cycleTasks = .error .outOfFuel ∧
    runCpm 100 cycleTasks = .error .outOfFuel := by
  refine ⟨by decide, by decide, by decide, by decide⟩

/-- Witness for C2's amended theorem on the concrete two-task cycle:
at recursion bound 7 every cycle member and the whole pipeline end in
`outOfFuel`. -/
theorem c2_witness :
    (∀ t ∈ cycleTasks, getEarlyStartScore 7 t cycleTasks = .error .outOfFuel) ∧
    updateAllEarlyVars 7 cycleTasks = .error .outOfFuel ∧
    runCpm 7 cycleTasks = .error .outOfFuel :=
  c2_cycle_never_terminates (by decide) (by decide) (by decide) (by decide) 7

/-- C3 counterexample: two records named `a` are accepted without any
error: loading succeeds keeping both records, and the whole pipeline
completes (task `b` gets `ES = 2` from the FIRST `a`, of duration 2);
no `DuplicateTask` failure exists anywhere. -/
theorem c3_counterexample :
    loadCSV dupLines = .ok dupTasks ∧ elixirMain 10 dupLines = .ok dupOut := by
  refine ⟨by decide, by decide⟩

/-- C3 (amended): duplicate names are not detected; name lookup
(`getTaskFromList`) returns the FIRST record carrying the name, so a
duplicate is silently shadowed rather than rejected. -/
theorem c3_lookup_first {l1 l2 : List Task} {t : Task} {n : String}
    (hname : t.name = n) (hnot : ∀ u ∈ l1, u.name ≠ n) :
    getTaskFromList n (l1 ++ t :: l2) = some t := by
  induction l1 with
  | nil =>
    subst hname
    simp [getTaskFromList, List.find?]
  | cons a rest ih =>
    have ha : (decide (a.name = n)) = false := by
      simp [hnot a (List.mem_cons_self _ _)]
    simp only [List.cons_append, getTaskFromList, List.find?, ha]
    exact ih (fun u hu => hnot u (List.mem_cons_of_mem _ hu))

/-- Witness for C3's amended theorem: in the duplicate-name input the
lookup of `a` yields the first `a` record (duration 2). -/
theorem c3_witness :
    getTaskFromList "a"
      (Task.make "a" 2 [] :: [Task.make "a" 5 [], Task.make "b" 1 ["a"]]) =
    some (Task.make "a" 2 []) :=
  @c3_lookup_first [] [Task.make "a" 5 [], Task.make "b" 1 ["a"]]
    (Task.make "a" 2 []) "a" rfl (by simp)

/-- C6: after every successful run, each task satisfies
`EF = ES + duration` and `LF = LS + duration`. -/
theorem c6_ef_lf_equations {fuel : Nat} {tasks out : List Task}
    (h : runCpm fuel tasks = .ok out) :
    ∀ t ∈ out, t.EF = t.ES + t.duration ∧ t.LF = t.LS + t.duration := by
  rcases runCpm_ok_elim h with ⟨t1, t2, t3, h1, h2, h3, hout⟩
  have hF := runCpm_final_forall₂ h3 hout
  have hSC := populateSuccessors_sameCore h2
  have hF1 := updateAllEarlyVars_ok h1
  intro t ht
  rcases forall₂_mem_right hF ht with ⟨u2, hu2, hfs⟩
  rcases hfs with ⟨hn, hdu, hde, hsu, hes, hef, hlf, hls, hsl⟩
  rcases forall₂_mem_right hSC hu2 with ⟨u1, hu1, hsc⟩
  rcases forall₂_mem_right hF1 hu1 with ⟨u0, hu0, hstep⟩
  rcases earlyStep_fields hstep with ⟨_, hdur01, _, _, hEF1⟩
  rcases hsc with ⟨_, hdur12, _, hES12, hEF12, _, _, _⟩
  exact ⟨by omega, by omega⟩

/-- Witness for C6 at the spec scenario, at task `c`. -/
theorem c6_witness :
    runCpm 10 demoTasks = .ok demoOut ∧
    ((⟨"c", 2, ["a"], ["d"], 2, 4, 3, 5, 1⟩ : Task).EF =
        (⟨"c", 2, ["a"], ["d"], 2, 4, 3, 5, 1⟩ : Task).ES +
          (⟨"c", 2, ["a"], ["d"], 2, 4, 3, 5, 1⟩ : Task).duration ∧
      (⟨"c", 2, ["a"], ["d"], 2, 4, 3, 5, 1⟩ : Task).LF =
        (⟨"c", 2, ["a"], ["d"], 2, 4, 3, 5, 1⟩ : Task).LS +
          (⟨"c", 2, ["a"], ["d"], 2, 4, 3, 5, 1⟩ : Task).duration) :=
  ⟨runCpm_demo,
   c6_ef_lf_equations runCpm_demo ⟨"c", 2, ["a"], ["d"], 2, 4, 3, 5, 1⟩ (by decide)⟩

/-- C8 (amended): an unresolvable dependency name does not abort
construction; instead the forward pass fails (for every fuel) when the
traversal first looks the name up. -/
theorem c8_dangling_fails_in_traversal {tl : List Task} {t : Task} {d : String}
    (ht : t ∈ tl) (hd : d ∈ t.dependencies) (hnone : getTaskFromList d tl = none) :
    ∀ fuel, ∃ e, updateAllEarlyVars fuel tl = .error e := by
  intro fuel
  exact updateEarlyGo_error (getES_error_of_dangling hd hnone fuel) ht

/-- C8 counterexample: with `a` depending on the non-existent `z`,
loading — all the construction the program performs — SUCCEEDS, and the
`Task not found: z` error arises only inside the forward timing
traversal, not at construction time. -/
theorem c8_counterexample :
    loadCSV danglingLines = .ok danglingTasks ∧
    updateAllEarlyVars 10 danglingTasks = .error (.taskNotFound "z") ∧
    elixirMain 10 danglingLines = .error (.taskNotFound "z") := by
  refine ⟨by decide, by decide, by decide⟩

/-- Witness for C8's amended theorem. -/
theorem c8_witness : ∃ e, updateAllEarlyVars 3 danglingTasks = .error e :=
  @c8_dangling_fails_in_traversal danglingTasks (Task.make "a" 1 ["z"]) "z"
    (by decide) (by decide) (by decide) 3

/-- C9 counterexample: the forward pass is NOT memoized: during one
`updateAllEarlyVars` pass over the diamond
(`b, c` depend on `a`; `d` on `b, c`), the recursion enters node `a`
five times — once per path from each per-task evaluation — not exactly
once. -/
theorem c9_counterexample :
    passEsCallsTo "a" 10 diamond = 5 ∧ passEsCallsTo "a" 10 diamond ≠ 1 := by
  refine ⟨by decide, by decide⟩

/-- C9 (amended): without memoization a shared ancestor is re-evaluated
once per incoming path: evaluating the diamond's sink enters the root
twice, and stacking a second diamond doubles it to four — path counts
multiply instead of staying linear. -/
theorem c9_calls_per_path :
    esCallsTo "a" 10 (Task.make "d" 1 ["b", "c"]) diamond = 2 ∧
    esCallsTo "a" 20 (Task.make "g" 1 ["e", "f"]) doubleDiamond = 4 := by
  refine ⟨by decide, by decide⟩

/-- C10: on an input whose dependency relation strictly decreases some
rank (i.e. is acyclic) and whose names all resolve, the forward
recursion terminates on every node; likewise the backward recursion on
a successor relation that strictly increases the rank with resolvable
names. -/
theorem c10_recursion_terminates (tl tl2 : List Task) (rank : String → Nat)
    (hrank : ∀ t ∈ tl, ∀ d ∈ t.dependencies, rank d < rank t.name)
    (hres : ∀ t ∈ tl, ∀ d ∈ t.dependencies, (getTaskFromList d tl).isSome)
    (hrank2 : ∀ t ∈ tl2, ∀ s ∈ t.successors, rank t.name < rank s)
    (hres2 : ∀ t ∈ tl2, ∀ s ∈ t.successors, (getTaskFromList s tl2).isSome) :
    (∀ t ∈ tl, ∃ fuel v, getEarlyStartScore fuel t tl = .ok v) ∧
    (∀ t ∈ tl2, ∃ fuel v, getLateFinishScore fuel t tl2 = .ok v) := by
  constructor
  · intro t ht
    rcases getEarlyStartScore_ok_of_rank hrank hres (rank t.name + 1) t ht (by omega) with ⟨v, hv⟩
    exact ⟨rank t.name + 1, v, hv⟩
  · have hBlt : ∀ u ∈ tl2,
        rank u.name < ((tl2.map fun t => rank t.name).foldr max 0) + 1 := by
      intro u hu
      have hfold : rank u.name ≤ (tl2.map fun t => rank t.name).foldr max 0 :=
        le_foldr_max (List.mem_map_of_mem (fun t => rank t.name) hu)
      omega
    intro t ht
    rcases getLateFinishScore_ok_of_corank hrank2 hres2 hBlt
      ((((tl2.map fun t => rank t.name).foldr max 0) + 1) - rank t.name) t ht
      (le_refl _) with ⟨v, hv⟩
    exact ⟨_, v, hv⟩

/-- Witness for C10: the forward recursion terminates on `d` in the
spec scenario and the backward recursion terminates on `a` in its
successor-populated form. -/
theorem c10_witness :
    (∃ fuel v, getEarlyStartScore fuel (Task.make "d" 5 ["b", "c"]) demoTasks = .ok v) ∧
    (∃ fuel v,
      getLateFinishScore fuel (⟨"a", 2, [], ["b", "c"], 0, 2, 0, 0, 0⟩ : Task) demoT2 = .ok v) :=
  ⟨(c10_recursion_terminates demoTasks demoT2 demoRank
      (by decide) (by decide) (by decide) (by decide)).1
      (Task.make "d" 5 ["b", "c"]) (by decide),
   (c10_recursion_terminates demoTasks demoT2 demoRank
      (by decide) (by decide) (by decide) (by decide)).2
      ⟨"a", 2, [], ["b", "c"], 0, 2, 0, 0, 0⟩ (by decide)⟩

/-- C7: on a valid DAG input (unique names, fresh successor lists, a
rank witnessing acyclicity) whose computed early finishes do not exceed
`INT_MAX` (no `int` overflow), every task of a successful run satisfies
`ES ≤ LS`, `EF ≤ LF` and `slack ≥ 0`. -/
theorem c7_invariants {fuel : Nat} {tasks out : List Task} {rank : String → Nat}
    (hnodup : (tasks.map Task.name).Nodup)
    (hinit : ∀ t ∈ tasks, t.successors = [])
    (hrank : ∀ t ∈ tasks, ∀ d ∈ t.dependencies, rank d < rank t.name)
    (hEFbound : ∀ t ∈ out, t.EF ≤ INT_MAX)
    (h : runCpm fuel tasks = .ok out) :
    ∀ t ∈ out, t.ES ≤ t.LS ∧ t.EF ≤ t.LF ∧ 0 ≤ t.slack := by
  rcases runCpm_ok_elim h with ⟨t1, t2, t3, h1, h2, h3, hout⟩
  have hF := runCpm_final_forall₂ h3 hout
  have hEFb2 : ∀ u ∈ t2, u.EF ≤ INT_MAX := by
    intro u hu
    rcases forall₂_mem_left hF hu with ⟨o, ho, hfs⟩
    have hef : o.EF = u.EF := hfs.2.2.2.2.2.1
    rw [← hef]
    exact hEFbound o ho
  have hbgf := backward_ge_forward hnodup hinit hrank h1 h2 hEFb2
  obtain ⟨_, _, horigin, _⟩ := t2_member_origin hnodup hinit h1 h2
  intro t ht
  rcases forall₂_mem_right hF ht with ⟨u, hu, hfs⟩
  rcases hfs with ⟨hn, hdu, hde, hsu, hes, hef, hlf, hls, hsl⟩
  have hle : u.EF ≤ t.LF := hbgf u hu fuel t.LF hlf
  rcases horigin u hu with ⟨u0, hu0, _, _, _, _, huEF, _⟩
  exact ⟨by omega, by omega, by omega⟩

/-- Witness for C7 at the spec scenario, at task `c`. -/
theorem c7_witness :
    runCpm 10 demoTasks = .ok demoOut ∧
    ((⟨"c", 2, ["a"], ["d"], 2, 4, 3, 5, 1⟩ : Task).ES ≤
        (⟨"c", 2, ["a"], ["d"], 2, 4, 3, 5, 1⟩ : Task).LS ∧
      (⟨"c", 2, ["a"], ["d"], 2, 4, 3, 5, 1⟩ : Task).EF ≤
        (⟨"c", 2, ["a"], ["d"], 2, 4, 3, 5, 1⟩ : Task).LF ∧
      0 ≤ (⟨"c", 2, ["a"], ["d"], 2, 4, 3, 5, 1⟩ : Task).slack) :=
  ⟨runCpm_demo,
   @c7_invariants 10 demoTasks demoOut demoRank (by decide) (by decide) (by decide)
     (by decide) runCpm_demo ⟨"c", 2, ["a"], ["d"], 2, 4, 3, 5, 1⟩ (by decide)⟩

/-- C5: on a valid DAG input with non-negative durations, the project
length computed by `outputTimelineCSV` is both the maximum of the early
finishes and the maximum of the late finishes (each is an upper bound
and each is attained), so the two passes agree on project length. -/
theorem c5_project_finish {fuel : Nat} {tasks out : List Task} {rank : String → Nat}
    (hnodup : (tasks.map Task.name).Nodup)
    (hinit : ∀ t ∈ tasks, t.successors = [])
    (hrank : ∀ t ∈ tasks, ∀ d ∈ t.dependencies, rank d < rank t.name)
    (hdur : ∀ t ∈ tasks, 0 ≤ t.duration)
    (hne : out ≠ [])
    (h : runCpm fuel tasks = .ok out) :
    (∀ t ∈ out, t.EF ≤ projectLength out) ∧ (∃ t ∈ out, t.EF = projectLength out) ∧
    (∀ t ∈ out, t.LF ≤ projectLength out) ∧ (∃ t ∈ out, t.LF = projectLength out) := by
  rcases runCpm_ok_elim h with ⟨t1, t2, t3, h1, h2, h3, hout⟩
  have hF := runCpm_final_forall₂ h3 hout
  have hEFcongr : List.Forall₂ (fun a b => a.EF = b.EF) t2 out :=
    hF.imp (fun a b hfs => hfs.2.2.2.2.2.1.symm)
  have hpl : projectLength t2 = projectLength out := projectLength_congr hEFcongr
  obtain ⟨_, _, horigin, _⟩ := t2_member_origin hnodup hinit h1 h2
  have hblm := backward_le_max hnodup hinit hrank h1 h2 hdur
  refine ⟨fun t ht => projectLength_ge_mem ht, ?_, ?_, ?_⟩
  · have hnn : ∀ t ∈ out, 0 ≤ t.EF := by
      intro t ht
      rcases forall₂_mem_right hF ht with ⟨u, hu, hfs⟩
      rcases horigin u hu with ⟨u0, hu0, _, hdur0, _, hES0, huEF, _⟩
      have h1n := getEarlyStartScore_nonneg hES0
      have h2n : 0 ≤ u.duration := by rw [← hdur0]; exact hdur u0 hu0
      have hef : t.EF = u.EF := hfs.2.2.2.2.2.1
      omega
    exact projectLength_attained hne hnn
  · intro t ht
    rcases forall₂_mem_right hF ht with ⟨u, hu, hfs⟩
    have hlf := hfs.2.2.2.2.2.2.1
    have hble := hblm u hu fuel t.LF hlf
    omega
  · have hne2 : t2 ≠ [] := by
      intro hc
      apply hne
      have hlen := List.Forall₂.length_eq hF
      rw [hc] at hlen
      exact List.eq_nil_of_length_eq_zero hlen.symm
    rcases exists_max_leaf hnodup hinit hrank h1 h2 hdur hne2 with ⟨u, hu, husucc, huEF⟩
    rcases forall₂_mem_left hF hu with ⟨o, ho, hfs⟩
    have hlf := hfs.2.2.2.2.2.2.1
    have hleaf := getLateFinishScore_leaf hlf husucc
    exact ⟨o, ho, by omega⟩

/-- Witness for C5 at the spec scenario: `max EF` and `max LF` (= 10)
are both attained in the output. -/
theorem c5_witness :
    (∃ t ∈ demoOut, t.EF = projectLength demoOut) ∧
    (∃ t ∈ demoOut, t.LF = projectLength demoOut) :=
  ⟨(@c5_project_finish 10 demoTasks demoOut demoRank (by decide) (by decide)
      (by decide) (by decide) (by decide) runCpm_demo).2.1,
   (@c5_project_finish 10 demoTasks demoOut demoRank (by decide) (by decide)
      (by decide) (by decide) (by decide) runCpm_demo).2.2.2⟩

/-- C4: on a non-empty valid DAG input (non-negative durations, no
overflow) at least one task ends with slack 0, and the slack-0 tasks
contain a chain of dependency edges from a task with no dependencies to
a task with no successors whose durations sum to the project finish
time. -/
theorem c4_critical_chain {fuel : Nat} {tasks out : List Task} {rank : String → Nat}
    (hnodup : (tasks.map Task.name).Nodup)
    (hinit : ∀ t ∈ tasks, t.successors = [])
    (hrank : ∀ t ∈ tasks, ∀ d ∈ t.dependencies, rank d < rank t.name)
    (hdur : ∀ t ∈ tasks, 0 ≤ t.duration)
    (hEFbound : ∀ t ∈ out, t.EF ≤ INT_MAX)
    (hne : out ≠ [])
    (h : runCpm fuel tasks = .ok out) :
    (∃ t ∈ out, t.slack = 0) ∧
    ∃ chain : List Task, chain ≠ [] ∧
      (∀ x ∈ chain, x ∈ out ∧ x.slack = 0) ∧
      (∃ hd, chain.head? = some hd ∧ hd.dependencies = []) ∧
      (∃ lst, chain.getLast? = some lst ∧ lst.successors = []) ∧
      List.Chain' (fun a b => a.name ∈ b.dependencies) chain ∧
      (chain.map Task.duration).sum = projectLength out := by
  rcases runCpm_ok_elim h with ⟨t1, t2, t3, h1, h2, h3, hout⟩
  have hF := runCpm_final_forall₂ h3 hout
  have hEFb2 : ∀ u ∈ t2, u.EF ≤ INT_MAX := by
    intro u hu
    rcases forall₂_mem_left hF hu with ⟨o, ho, hfs⟩
    have hef : o.EF = u.EF := hfs.2.2.2.2.2.1
    rw [← hef]
    exact hEFbound o ho
  have hEFcongr : List.Forall₂ (fun a b => a.EF = b.EF) t2 out :=
    hF.imp (fun a b hfs => hfs.2.2.2.2.2.1.symm)
  have hpl : projectLength t2 = projectLength out := projectLength_congr hEFcongr
  obtain ⟨_, _, horigin, _⟩ := t2_member_origin hnodup hinit h1 h2
  have hne2 : t2 ≠ [] := by
    intro hc
    apply hne
    have hlen := List.Forall₂.length_eq hF
    rw [hc] at hlen
    exact List.eq_nil_of_length_eq_zero hlen.symm
  rcases exists_max_leaf hnodup hinit hrank h1 h2 hdur hne2 with ⟨uL, huL, hLsucc, hLEF⟩
  rcases forall₂_mem_left hF huL with ⟨oL, hoL, hfsL⟩
  have hlfL := hfsL.2.2.2.2.2.2.1
  have hleafL := getLateFinishScore_leaf hlfL hLsucc
  have hucrit : ∃ g, getLateFinishScore g uL t2 = .ok uL.EF :=
    ⟨fuel, by rw [← hleafL]; exact hlfL⟩
  rcases chain_to_root hnodup hinit hrank h1 h2 h3 hdur hEFb2 (rank uL.name + 1) uL huL
    (by omega) hucrit with ⟨l, hlne, hllast, hlmem, hlhead, hlchain, hlsum⟩
  have hpart : ∀ x ∈ l, ∃ y, y ∈ out ∧ FinalStep fuel t2 x y := by
    intro x hx
    rcases forall₂_mem_left hF (hlmem x hx).1 with ⟨y, hy, hfs⟩
    exact ⟨y, hy, hfs⟩
  rcases build_partner_list l hpart with ⟨l', hl'⟩
  have hmem' : ∀ y ∈ l', y ∈ out ∧ y.slack = 0 := by
    intro y hy
    rcases forall₂_mem_right hl' hy with ⟨x, hx, hPout, hPfs⟩
    rcases (hlmem x hx).2 with ⟨g, hcrit⟩
    rcases hPfs with ⟨_, _, _, _, hes, _, hlf, hls, hsl⟩
    have hlfx : y.LF = x.EF := getLateFinishScore_unique hlf hcrit
    rcases horigin x (hlmem x hx).1 with ⟨x0, _, _, _, _, _, hxEF, _⟩
    exact ⟨hPout, by omega⟩
  have hl'ne : l' ≠ [] := by
    intro hc
    apply hlne
    have hlen := List.Forall₂.length_eq hl'
    rw [hc] at hlen
    exact List.eq_nil_of_length_eq_zero hlen
  constructor
  · rcases List.exists_mem_of_ne_nil l' hl'ne with ⟨y, hy⟩
    exact ⟨y, (hmem' y hy).1, (hmem' y hy).2⟩
  · refine ⟨l', hl'ne, hmem', ?_, ?_, ?_, ?_⟩
    · rcases hlhead with ⟨hd, hhd, hhddeps⟩
      rcases forall₂_head? hl' hhd with ⟨hd', hhd', hP⟩
      refine ⟨hd', hhd', ?_⟩
      have hde : hd'.dependencies = hd.dependencies := hP.2.2.2.1
      rw [hde, hhddeps]
    · rcases forall₂_getLast? hl' hllast with ⟨lst, hlst, hP⟩
      refine ⟨lst, hlst, ?_⟩
      have hsu : lst.successors = uL.successors := hP.2.2.2.2.1
      rw [hsu, hLsucc]
    · refine chain'_transport ?_ hlchain hl'
      intro a b a' b' hR hSa hSb
      have hna : a'.name = a.name := hSa.2.1
      have hdb : b'.dependencies = b.dependencies := hSb.2.2.2.1
      rw [hna, hdb]
      exact hR
    · have hmapeq : l'.map Task.duration = l.map Task.duration :=
        forall₂_map_eq (fun a b hP => hP.2.2.1) hl'
      rw [hmapeq, hlsum, hLEF, hpl]

/-- Witness for C4 at the spec scenario: the output has a slack-0 task
and a critical chain (it is `a → b → d`, durations 2+3+5 = 10). -/
theorem c4_witness :
    (∃ t ∈ demoOut, t.slack = 0) ∧
    ∃ chain : List Task, chain ≠ [] ∧
      (∀ x ∈ chain, x ∈ demoOut ∧ x.slack = 0) ∧
      (∃ hd, chain.head? = some hd ∧ hd.dependencies = []) ∧
      (∃ lst, chain.getLast? = some lst ∧ lst.successors = []) ∧
      List.Chain' (fun a b => a.name ∈ b.dependencies) chain ∧
      (chain.map Task.duration).sum = projectLength demoOut :=
  @c4_critical_chain 10 demoTasks demoOut demoRank (by decide) (by decide) (by decide)
    (by decide) (by decide) (by decide) runCpm_demo

end Elixir
